import Mathlib

/-!
# Probabilistic graph generator (`graph_generator.c`)

A shallow embedding of the LFSR step `lfsr` and of the pair-enumeration loop of
`generate_adjacency_list`, followed by the properties established about them.

Conventions of the embedding:

* `uint32_t` / `unsigned int` values are natural numbers; an operation that can leave
  the 32-bit range (`<<`, `++`, `+ 1`) is followed by an explicit `% 2 ^ 32`.
  Operations that cannot (`>>`, `&`, `|`, `^`) are the corresponding `Nat` operations.
* The two nested `while` loops are functions with an iteration budget (fuel) that
  return `none` when the budget is exhausted before the loop condition turns false.
* The text written with `fprintf` is represented by the list of the triples
  `(i, j, edge_bit)` passed to it, in the order in which the lines are written; a second
  version of the loops writes the characters themselves (`adjacency_list_txt`), and the
  two are shown to agree.
* The parameter collection of `set_parameters` is represented by its acceptance test and
  by the loop around it, run on the values stored by the successive calls of `scanf`.
* Polynomials over GF(2) are `Polynomial (ZMod 2)`; bit masks stand for them in the
  computations, bit `e` of a mask being the coefficient of `x^e`.
-/

namespace GraphGen

/-! ## Definitions -/

/-- The step `lfsr` (graph_generator.c, lines 29-40), as a function from the value
stored in `*x32` before the call to the value stored after it. -/
def lfsr (x32 : Nat) : Nat :=
  let tmp := x32
  let my_bit := (tmp ^^^ (tmp >>> 16) ^^^ (tmp >>> 25) ^^^ (tmp >>> 30)) &&& 1
  (tmp >>> 1) ||| ((my_bit <<< 31) % 2 ^ 32)

/-- The constant stored in `my32` at line 79. -/
def seed0 : Nat := 0xb16b00b5

/-- One written line: the values `(i, j, edge_bit)` handed to `fprintf`. -/
abbrev EdgeRecord := Nat × Nat × Nat

/-- The local variables of `generate_adjacency_list` that survive a loop iteration,
together with the lines written so far. -/
structure GenState where
  i : Nat
  j : Nat
  my32 : Nat
  out : List EdgeRecord
deriving DecidableEq, Repr

/-- The edge decision of lines 88-94: `edge_bit = 0; if ((my32 & 0xf) < level) edge_bit = 1;`. -/
def edgeDecision (my32 edge_probability_level : Nat) : Nat :=
  if (my32 &&& 0xf) < edge_probability_level then 1 else 0

/-- The inner loop `while (j < num_vertices) { ... }` (lines 86-111). -/
def innerLoop (num_vertices edge_probability_level : Nat) : Nat → GenState → Option GenState
  | 0, _ => none
  | fuel + 1, s =>
    if s.j < num_vertices then
      let edge_bit := edgeDecision s.my32 edge_probability_level
      innerLoop num_vertices edge_probability_level fuel
        { i := s.i
          j := (s.j + 1) % 2 ^ 32
          my32 := lfsr s.my32
          out := s.out ++ [(s.i, s.j, edge_bit)] }
    else some s

/-- The outer loop `while (i < num_vertices) { ... }` (lines 84-114); `innerFuel` is the
iteration budget granted to each run of the inner loop. -/
def outerLoop (num_vertices edge_probability_level innerFuel : Nat) :
    Nat → GenState → Option GenState
  | 0, _ => none
  | fuel + 1, s =>
    if s.i < num_vertices then
      match innerLoop num_vertices edge_probability_level innerFuel s with
      | none => none
      | some t =>
        let i1 := (t.i + 1) % 2 ^ 32
        outerLoop num_vertices edge_probability_level innerFuel fuel
          { i := i1, j := (i1 + 1) % 2 ^ 32, my32 := t.my32, out := t.out }
    else some s

/-- The body of `generate_adjacency_list` (lines 75-114) with the initial value of
`my32` taken as a parameter: `i = 0`, `j = 1`, nothing written yet. -/
def generateFrom (seed fuel num_vertices edge_probability_level : Nat) : Option GenState :=
  outerLoop num_vertices edge_probability_level fuel fuel
    { i := 0, j := 1, my32 := seed, out := [] }

/-- The function `generate_adjacency_list` (lines 68-116): `my32` starts at `0xb16b00b5`. -/
def generate_adjacency_list (fuel num_vertices edge_probability_level : Nat) :
    Option GenState :=
  generateFrom seed0 fuel num_vertices edge_probability_level

/-- The lines written by a run, `none` when the iteration budget did not suffice. -/
def emitted (seed fuel num_vertices edge_probability_level : Nat) : Option (List EdgeRecord) :=
  (generateFrom seed fuel num_vertices edge_probability_level).map GenState.out

/-! ## Reference descriptions used in the statements -/

/-- The feedback bit in the shift form `(w ^ (w>>16) ^ (w>>25) ^ (w>>30)) & 1`. -/
def feedbackShift (w : Nat) : Nat :=
  (w ^^^ (w >>> 16) ^^^ (w >>> 25) ^^^ (w >>> 30)) &&& 1

/-- The bit of weight `2 ^ k`: `bit(state, k) = (state >> k) & 1`. -/
def bitAt (state k : Nat) : Nat := (state >>> k) &&& 1

/-- The pairs `(i, j)` with `i < j < V`, `i` ascending as the outer index and, for each
`i`, `j` ascending from `i + 1` to `V - 1`. -/
def pairsLex (V : Nat) : List (Nat × Nat) :=
  (List.range V).flatMap fun i => (List.range' (i + 1) (V - (i + 1))).map (Prod.mk i)

/-- Strict lexicographic order on pairs. -/
def lexLt (a b : Nat × Nat) : Prop := a.1 < b.1 ∨ (a.1 = b.1 ∧ a.2 < b.2)

/-- The pairs of the rows `i, i + 1, ..., i + m - 1` of the enumeration for `V` vertices. -/
def pairsRows (V i m : Nat) : List (Nat × Nat) :=
  (List.range' i m).flatMap fun a => (List.range' (a + 1) (V - (a + 1))).map (Prod.mk a)

/-- A list of pairs decorated with the decisions taken on the successive states
`x, lfsr x, lfsr (lfsr x), ...`. -/
def decorate (P : Nat) (ps : List (Nat × Nat)) (x : Nat) : List EdgeRecord :=
  List.zipWith (fun p s => (p.1, p.2, edgeDecision s P)) ps (List.iterate lfsr x ps.length)

/-- The number of records whose edge bit is 1. -/
def edgeCount (rs : List EdgeRecord) : Nat := (rs.filter fun r => r.2.2 = 1).length

/-! ## Parameter collection -/

/-- The acceptance test of `set_parameters` (line 58):
`(*edge_prob_p) && (((*edge_prob_p) & 0xf) == *edge_prob_p)`. -/
def acceptance (edge_prob : Nat) : Bool :=
  (edge_prob != 0) && ((edge_prob &&& 0xf) == edge_prob)

/-- The loop `while (scanf_loop) { ... }` of `set_parameters` (lines 52-63), run on the
values that the successive calls of `scanf` store into `*edge_prob_p`: the first value
that passes the test ends the loop; `none` when every value supplied is refused and the
loop is still prompting. -/
def set_parameters_loop : List Nat → Option Nat
  | [] => none
  | edge_prob :: later =>
    if acceptance edge_prob then some edge_prob else set_parameters_loop later

/-! ## The text written to `adjacency_list.txt` -/

/-- The call `fprintf(fptr, "%d", x)` with `x` of type `unsigned int` (lines 97, 99, 101).
The conversion `%d` reads its argument as an `int`: the 32 bits of `x` are taken in two's
complement, so a value of `2 ^ 31` or more is written as a minus sign followed by the
decimal digits of `2 ^ 32 - x`, and a smaller value as its decimal digits. -/
def fprintf_d (x : Nat) : List Char :=
  if x < 2 ^ 31 then Nat.toDigits 10 x else '-' :: Nat.toDigits 10 (2 ^ 32 - x)

/-- The characters written by one pass through lines 97-106: `i`, `", "`, `j`, `", "`,
`edge_bit`, `"\n"`. -/
def fprintf_line (i j edge_bit : Nat) : List Char :=
  fprintf_d i ++ [',', ' '] ++ fprintf_d j ++ [',', ' '] ++ fprintf_d edge_bit ++ ['\n']

/-- The local variables of `generate_adjacency_list` together with the content of the
file behind `fptr`. -/
structure FileState where
  i : Nat
  j : Nat
  my32 : Nat
  file : List Char
deriving DecidableEq

/-- The inner loop (lines 86-111) acting on the file. -/
def innerLoopFile (num_vertices edge_probability_level : Nat) :
    Nat → FileState → Option FileState
  | 0, _ => none
  | fuel + 1, s =>
    if s.j < num_vertices then
      let edge_bit := edgeDecision s.my32 edge_probability_level
      innerLoopFile num_vertices edge_probability_level fuel
        { i := s.i
          j := (s.j + 1) % 2 ^ 32
          my32 := lfsr s.my32
          file := s.file ++ fprintf_line s.i s.j edge_bit }
    else some s

/-- The outer loop (lines 84-114) acting on the file. -/
def outerLoopFile (num_vertices edge_probability_level innerFuel : Nat) :
    Nat → FileState → Option FileState
  | 0, _ => none
  | fuel + 1, s =>
    if s.i < num_vertices then
      match innerLoopFile num_vertices edge_probability_level innerFuel s with
      | none => none
      | some t =>
        let i1 := (t.i + 1) % 2 ^ 32
        outerLoopFile num_vertices edge_probability_level innerFuel fuel
          { i := i1, j := (i1 + 1) % 2 ^ 32, my32 := t.my32, file := t.file }
    else some s

/-- The content of `adjacency_list.txt` after `generate_adjacency_list` (lines 75-115):
the file is opened with mode `"w"`, hence empty, and closed after the loops. -/
def adjacency_list_txt (fuel num_vertices edge_probability_level : Nat) :
    Option (List Char) :=
  (outerLoopFile num_vertices edge_probability_level fuel fuel
    { i := 0, j := 1, my32 := seed0, file := [] }).map FileState.file

/-- The line of the reference format for the record `(i, j, edge_bit)`: the decimal
digits of `i`, then `", "`, the decimal digits of `j`, then `", "`, the decimal digits of
`edge_bit`, then `"\n"`. -/
def referenceLine (i j edge_bit : Nat) : List Char :=
  Nat.toDigits 10 i ++ [',', ' '] ++ Nat.toDigits 10 j ++ [',', ' ']
    ++ Nat.toDigits 10 edge_bit ++ ['\n']

/-- The text of the reference format for a sequence of records: the lines of the
records in order, and nothing else. -/
def referenceText (rs : List EdgeRecord) : List Char :=
  rs.flatMap fun r => referenceLine r.1 r.2.1 r.2.2

/-- The state of the file version of the loops that corresponds to a state of the
record version. -/
def toFileState (s : GenState) : FileState :=
  { i := s.i, j := s.j, my32 := s.my32,
    file := s.out.flatMap fun r => fprintf_line r.1 r.2.1 r.2.2 }

/-! ## Reading the text back -/

/-- The pieces of a text between the occurrences of `"\n"`. -/
def splitOnNewline : List Char → List (List Char)
  | [] => [[]]
  | c :: cs =>
    if c = '\n' then [] :: splitOnNewline cs
    else
      match splitOnNewline cs with
      | [] => [[c]]
      | piece :: pieces => (c :: piece) :: pieces

/-- The pieces of a line between the occurrences of `", "`. -/
def splitOnCommaSpace : List Char → List (List Char)
  | [] => [[]]
  | [c] => [[c]]
  | c :: d :: cs =>
    if c = ',' ∧ d = ' ' then [] :: splitOnCommaSpace cs
    else
      match splitOnCommaSpace (d :: cs) with
      | [] => [[c]]
      | piece :: pieces => (c :: piece) :: pieces

/-- The value of a decimal digit. -/
def digitValue (c : Char) : Option Nat :=
  if '0' ≤ c ∧ c ≤ '9' then some (c.toNat - '0'.toNat) else none

/-- The value of a string of decimal digits after the digits of value `acc`. -/
def readDigits (acc : Nat) : List Char → Option Nat
  | [] => some acc
  | c :: cs =>
    match digitValue c with
    | none => none
    | some d => readDigits (10 * acc + d) cs

/-- A decimal integer: an optional minus sign and at least one digit. -/
def readDecimal : List Char → Option Int
  | [] => none
  | c :: cs =>
    if c = '-' then
      match cs with
      | [] => none
      | _ :: _ =>
        match readDigits 0 cs with
        | none => none
        | some n => some (- Int.ofNat n)
    else
      match readDigits 0 (c :: cs) with
      | none => none
      | some n => some (Int.ofNat n)

/-- A line read as three decimal integers separated by `", "`. -/
def readLine (line : List Char) : Option (Int × Int × Int) :=
  match splitOnCommaSpace line with
  | [a, b, c] =>
    match readDecimal a, readDecimal b, readDecimal c with
    | some x, some y, some z => some (x, y, z)
    | _, _, _ => none
  | _ => none

/-- The lines of a list read one by one. -/
def readLines : List (List Char) → Option (List (Int × Int × Int))
  | [] => some []
  | line :: lines =>
    match readLine line, readLines lines with
    | some r, some rs => some (r :: rs)
    | _, _ => none

/-- The lines of a text: its pieces between the `"\n"`, the empty piece after a final
`"\n"` left out. -/
def textLines (text : List Char) : List (List Char) :=
  let pieces := splitOnNewline text
  if pieces.getLast? = some [] then pieces.dropLast else pieces

/-- A text read back: split on `"\n"`, each line split on `", "`, three decimal integers
read from each. -/
def readText (text : List Char) : Option (List (Int × Int × Int)) :=
  readLines (textLines text)

/-- A record of the generator as a triple of integers. -/
def recordAsInts (r : EdgeRecord) : Int × Int × Int := ((r.1 : Int), (r.2.1 : Int), (r.2.2 : Int))

/-- The 32 bits of an `unsigned int` read as an `int` (two's complement). -/
def asInt32 (x : Nat) : Int :=
  if x < 2 ^ 31 then Int.ofNat x else Int.ofNat x - 2 ^ 32

/-- A record of the generator with each value read as an `int`. -/
def recordAsInt32s (r : EdgeRecord) : Int × Int × Int :=
  (asInt32 r.1, asInt32 r.2.1, asInt32 r.2.2)

/-! ## The tap polynomial -/

/-- The polynomial `x^32 + x^16 + x^7 + x^2 + 1` named in the comment of `lfsr` (line 31)
as a bit mask: bit `e` is the coefficient of `x^e`. -/
def tapPolynomialMask : Nat := 0x100010085

/-- The product of two polynomials over GF(2) given as bit masks (carry-less product),
with an iteration budget: bit by bit through `b`, adding (XOR) the shifted copy of `a` for
every set bit. -/
def clmulAux : Nat → Nat → Nat → Nat
  | 0, _, _ => 0
  | fuel + 1, a, b => (if b % 2 = 1 then a else 0) ^^^ clmulAux fuel (a <<< 1) (b / 2)

/-- The carry-less product of two bit masks of at most 64 bits. -/
def clmul (a b : Nat) : Nat := clmulAux 64 a b

/-- The bit mask `n` is the polynomial `p` over GF(2): bit `i` of `n` is the coefficient
of `x^i` in `p`. -/
def Encodes (n : Nat) (p : Polynomial (ZMod 2)) : Prop :=
  ∀ i, p.coeff i = if n.testBit i then 1 else 0

/-- A chain of checks along the residues `r` of `x^(2^d)` modulo the polynomial `F`: each
entry `(q, r2, u, v)` is checked to satisfy `r * r = r2 + q * F` and
`u * F + v * (r2 + x) = 1` as polynomials over GF(2), and the chain goes on from `r2`. -/
def chainOK (F : Nat) : List (Nat × Nat × Nat × Nat) → Nat → Bool
  | [], _ => true
  | (q, r2, u, v) :: later, r =>
    (r < 2 ^ 64 && F < 2 ^ 64 && (r2 ^^^ 2) < 2 ^ 64)
      && (clmul r r == r2 ^^^ clmul q F)
      && (clmul u F ^^^ clmul v (r2 ^^^ 2) == 1)
      && chainOK F later r2

/-- The chain for `x^32 + x^16 + x^7 + x^2 + 1`: for `d = 1, ..., 16` the quotient and the
residue of the square of the previous residue, and the two cofactors that combine the
polynomial and `x^(2^d) + x` to 1. -/
def tapChain : List (Nat × Nat × Nat × Nat) :=
  [ (0x0, 0x4, 0x1, 0x7fff803e),
    (0x0, 0x10, 0x1, 0x124936d2),
    (0x0, 0x100, 0x89, 0x8810a816),
    (0x0, 0x10000, 0x4bb9, 0x4bb9dcee),
    (0x1, 0x10085, 0x6f81, 0x6fb7ba6c),
    (0x1, 0x14094, 0x4407, 0x50236c73),
    (0x1, 0x10014195, 0x739676e, 0x7390f6c1),
    (0x1000101, 0x9400c494, 0x5801fb05, 0xa12f2ef8),
    (0x41104131, 0xdc509c65, 0x26dd690c, 0x7b000bdf),
    (0x51504079, 0xbd18690c, 0x6e67312d, 0xf69ae534),
    (0x45514432, 0xa8c54daa, 0x37ad5625, 0x7507abde),
    (0x44401472, 0x716938fe, 0x35853815, 0xab1a89d0),
    (0x1501014a, 0xc58ff436, 0x77c9784d, 0xb2976d16),
    (0x5011106d, 0x5da0624d, 0x20128d14, 0xb242107f),
    (0x11515559, 0xbde3bcec, 0xeac0275, 0x195bbb30),
    (0x45511177, 0xacbabb7b, 0x3be828cc, 0x6870ba65) ]

/-! ## The LFSR step in arithmetic form -/

theorem feedback_eq_mod (w : Nat) :
    (w ^^^ (w >>> 16) ^^^ (w >>> 25) ^^^ (w >>> 30)) &&& 1
      = (w + w / 2 ^ 16 + w / 2 ^ 25 + w / 2 ^ 30) % 2 := by
  rw [Nat.and_one_is_mod, Nat.xor_mod_two_eq, Nat.add_mod, Nat.xor_mod_two_eq,
    Nat.add_mod (w ^^^ w >>> 16), Nat.xor_mod_two_eq]
  simp only [Nat.shiftRight_eq_div_pow]
  omega

theorem or_high_bit (a b : Nat) (ha : a < 2 ^ 31) :
    a ||| (b <<< 31) = a + 2 ^ 31 * b := by
  rw [Nat.shiftLeft_eq, Nat.or_comm, Nat.mul_comm b, ← Nat.mul_add_lt_is_or ha]
  omega

theorem lfsr_arith (w : Nat) (hw : w < 2 ^ 32) :
    lfsr w = w / 2 + 2 ^ 31 * ((w + w / 2 ^ 16 + w / 2 ^ 25 + w / 2 ^ 30) % 2) := by
  unfold lfsr
  simp only []
  rw [feedback_eq_mod]
  have hm : (((w + w / 2 ^ 16 + w / 2 ^ 25 + w / 2 ^ 30) % 2) <<< 31) % 2 ^ 32
      = ((w + w / 2 ^ 16 + w / 2 ^ 25 + w / 2 ^ 30) % 2) <<< 31 := by
    apply Nat.mod_eq_of_lt
    rw [Nat.shiftLeft_eq]
    omega
  rw [hm, Nat.shiftRight_eq_div_pow, or_high_bit _ _ (by omega)]

theorem lfsr_lt (w : Nat) (hw : w < 2 ^ 32) : lfsr w < 2 ^ 32 := by
  rw [lfsr_arith w hw]; omega

theorem iterate_lfsr_lt (w : Nat) (hw : w < 2 ^ 32) (n : Nat) : lfsr^[n] w < 2 ^ 32 := by
  induction n with
  | zero => simpa using hw
  | succ n ih => rw [Function.iterate_succ_apply']; exact lfsr_lt _ ih

theorem lfsr_eq_zero_iff (w : Nat) (hw : w < 2 ^ 32) : lfsr w = 0 ↔ w = 0 := by
  rw [lfsr_arith w hw]
  constructor
  · intro h
    have h2 : w / 2 = 0 := by omega
    have hle : w ≤ 1 := by omega
    have h16 : w / 2 ^ 16 = 0 := by omega
    have h25 : w / 2 ^ 25 = 0 := by omega
    have h30 : w / 2 ^ 30 = 0 := by omega
    rw [h2, h16, h25, h30] at h
    omega
  · rintro rfl
    rfl

/-! ## The loops in closed form -/

theorem decorate_nil (P x : Nat) : decorate P [] x = [] := rfl

theorem decorate_append (P : Nat) (ps qs : List (Nat × Nat)) (x : Nat) :
    decorate P (ps ++ qs) x = decorate P ps x ++ decorate P qs (lfsr^[ps.length] x) := by
  unfold decorate
  rw [List.length_append, List.iterate_add, List.zipWith_append]
  simp

theorem decorate_single (P i j x : Nat) :
    decorate P [(i, j)] x = [(i, j, edgeDecision x P)] := by
  simp [decorate, List.iterate]

theorem length_decorate (P : Nat) (ps : List (Nat × Nat)) (x : Nat) :
    (decorate P ps x).length = ps.length := by
  simp [decorate]

theorem map_pair_decorate (P : Nat) (ps : List (Nat × Nat)) (x : Nat) :
    (decorate P ps x).map (fun r => (r.1, r.2.1)) = ps := by
  apply List.ext_getElem
  · simp [decorate]
  · intro n h1 h2
    simp [decorate]

theorem getElem?_decorate (P : Nat) (ps : List (Nat × Nat)) (x k : Nat) :
    (decorate P ps x)[k]? =
      ps[k]?.map (fun p => (p.1, p.2, edgeDecision (lfsr^[k] x) P)) := by
  unfold decorate
  rw [List.getElem?_zipWith]
  by_cases hk : k < ps.length
  · have h2 : k < (List.iterate lfsr x ps.length).length := by simpa using hk
    rw [List.getElem?_eq_getElem hk, List.getElem?_eq_getElem h2, List.getElem_iterate]
    rfl
  · rw [List.getElem?_eq_none (by omega)]
    rfl

/-- A run of the inner loop from column `j` writes the rest of row `i`. -/
theorem innerLoop_closed (V P i : Nat) (hV : V < 2 ^ 32) :
    ∀ (n fuel j x : Nat) (out : List EdgeRecord), j + n = V → n < fuel →
      innerLoop V P fuel { i := i, j := j, my32 := x, out := out } =
        some { i := i, j := V, my32 := lfsr^[n] x,
               out := out ++ decorate P ((List.range' j n).map (Prod.mk i)) x } := by
  intro n
  induction n with
  | zero =>
    intro fuel j x out hj hf
    obtain ⟨f, rfl⟩ : ∃ f, fuel = f + 1 := ⟨fuel - 1, by omega⟩
    have : ¬ j < V := by omega
    simp [innerLoop, this, decorate_nil]
    omega
  | succ n ih =>
    intro fuel j x out hj hf
    obtain ⟨f, rfl⟩ : ∃ f, fuel = f + 1 := ⟨fuel - 1, by omega⟩
    have hlt : j < V := by omega
    have hmod : (j + 1) % 2 ^ 32 = j + 1 := Nat.mod_eq_of_lt (by omega)
    rw [innerLoop]
    simp only [hlt, if_true, hmod]
    rw [ih f (j + 1) (lfsr x) _ (by omega) (by omega)]
    rw [List.range'_succ, List.map_cons]
    rw [show ((i, j) :: List.map (Prod.mk i) (List.range' (j + 1) n))
        = [(i, j)] ++ List.map (Prod.mk i) (List.range' (j + 1) n) from rfl]
    rw [decorate_append, decorate_single]
    simp [Function.iterate_succ_apply]

theorem pairsRows_succ (V i m : Nat) :
    pairsRows V i (m + 1) =
      (List.range' (i + 1) (V - (i + 1))).map (Prod.mk i) ++ pairsRows V (i + 1) m := by
  simp [pairsRows, List.range'_succ]

theorem pairsLex_eq_rows (V : Nat) : pairsLex V = pairsRows V 0 V := by
  simp [pairsLex, pairsRows, List.range_eq_range']

/-- A run of the outer loop from row `i` writes the rows `i, ..., V - 1`. -/
theorem outerLoop_closed (V P innerFuel : Nat) (hV : V < 2 ^ 32) (hI : V ≤ innerFuel) :
    ∀ (m fuel i x : Nat) (out : List EdgeRecord), i + m = V → m < fuel →
      outerLoop V P innerFuel fuel { i := i, j := (i + 1) % 2 ^ 32, my32 := x, out := out } =
        some { i := V, j := (V + 1) % 2 ^ 32, my32 := lfsr^[(pairsRows V i m).length] x,
               out := out ++ decorate P (pairsRows V i m) x } := by
  intro m
  induction m with
  | zero =>
    intro fuel i x out hi hf
    obtain ⟨f, rfl⟩ : ∃ f, fuel = f + 1 := ⟨fuel - 1, by omega⟩
    have hiV : i = V := by omega
    subst hiV
    simp [outerLoop, pairsRows, decorate_nil]
  | succ m ih =>
    intro fuel i x out hi hf
    obtain ⟨f, rfl⟩ : ∃ f, fuel = f + 1 := ⟨fuel - 1, by omega⟩
    have hlt : i < V := by omega
    have hmod : (i + 1) % 2 ^ 32 = i + 1 := Nat.mod_eq_of_lt (by omega)
    rw [outerLoop]
    simp only [hlt, if_true, hmod]
    rw [innerLoop_closed V P i hV (V - (i + 1)) innerFuel (i + 1) x out (by omega) (by omega)]
    simp only [hmod]
    rw [ih f (i + 1) _ _ (by omega) (by omega), pairsRows_succ, decorate_append]
    simp only [List.length_append, List.length_map, List.length_range', List.append_assoc]
    rw [Nat.add_comm (V - (i + 1)), Function.iterate_add_apply]

/-- With an iteration budget above `V`, the run from `seed` ends with `i = V`, with the
state advanced once per pair, and with the pairs of `pairsLex V` written in order. -/
theorem generateFrom_closed (seed fuel V P : Nat) (hV : V < 2 ^ 32) (hf : V < fuel) :
    generateFrom seed fuel V P =
      some { i := V, j := (V + 1) % 2 ^ 32, my32 := lfsr^[(pairsLex V).length] seed,
             out := decorate P (pairsLex V) seed } := by
  have h := outerLoop_closed V P fuel hV (by omega) V fuel 0 seed [] (by omega) hf
  simpa [generateFrom, pairsLex_eq_rows] using h

theorem emitted_closed (seed fuel V P : Nat) (hV : V < 2 ^ 32) (hf : V < fuel) :
    emitted seed fuel V P = some (decorate P (pairsLex V) seed) := by
  simp [emitted, generateFrom_closed seed fuel V P hV hf]

/-! ## The enumeration of the pairs -/

theorem mem_pairsLex (V a b : Nat) : (a, b) ∈ pairsLex V ↔ a < b ∧ b < V := by
  simp only [pairsLex, List.mem_flatMap, List.mem_range, List.mem_map, List.mem_range'_1,
    Prod.mk.injEq]
  constructor
  · rintro ⟨i, hi, j, hj, rfl, rfl⟩
    omega
  · rintro ⟨hab, hb⟩
    exact ⟨a, by omega, b, by omega, rfl, rfl⟩

theorem pairsLex_sorted (V : Nat) : (pairsLex V).Pairwise lexLt := by
  unfold pairsLex
  rw [List.pairwise_flatMap]
  constructor
  · intro i _
    rw [List.pairwise_map]
    exact (List.pairwise_lt_range' (i + 1) (V - (i + 1))).imp fun h => Or.inr ⟨rfl, h⟩
  · refine (List.pairwise_lt_range V).imp ?_
    intro i k hik x hx y hy
    simp only [List.mem_map] at hx hy
    obtain ⟨_, _, rfl⟩ := hx
    obtain ⟨_, _, rfl⟩ := hy
    exact Or.inl hik

theorem pairsLex_nodup (V : Nat) : (pairsLex V).Nodup := by
  refine (pairsLex_sorted V).imp ?_
  intro a b h hab
  subst hab
  rcases h with h | ⟨_, h⟩ <;> omega

theorem length_pairsRows (V : Nat) :
    ∀ m i : Nat, i + m = V → (pairsRows V i m).length * 2 = m * (m - 1) := by
  intro m
  induction m with
  | zero => intro i _; simp [pairsRows]
  | succ m ih =>
    intro i hi
    rw [pairsRows_succ, List.length_append, List.length_map, List.length_range',
      Nat.add_mul, ih (i + 1) (by omega)]
    have hm : V - (i + 1) = m := by omega
    rw [hm]
    cases m with
    | zero => rfl
    | succ k => simp only [Nat.add_sub_cancel]; ring

theorem length_pairsLex (V : Nat) : (pairsLex V).length = V * (V - 1) / 2 := by
  have h := length_pairsRows V V 0 (by omega)
  rw [← pairsLex_eq_rows] at h
  omega

theorem decorate_cons (P : Nat) (p : Nat × Nat) (ps : List (Nat × Nat)) (x : Nat) :
    decorate P (p :: ps) x = (p.1, p.2, edgeDecision x P) :: decorate P ps (lfsr x) := by
  simp [decorate, List.iterate]

theorem edgeDecision_mono (s P : Nat) (h : edgeDecision s P = 1) :
    edgeDecision s (P + 1) = 1 := by
  unfold edgeDecision at *
  split at h
  · rw [if_pos (by omega)]
  · omega

theorem edgeDecision_le_one (s P : Nat) : edgeDecision s P = 0 ∨ edgeDecision s P = 1 := by
  unfold edgeDecision
  split <;> simp

theorem edgeCount_decorate_mono (P : Nat) (ps : List (Nat × Nat)) :
    ∀ x, edgeCount (decorate P ps x) ≤ edgeCount (decorate (P + 1) ps x) := by
  induction ps with
  | nil => intro x; simp [decorate_nil]
  | cons p ps ih =>
    intro x
    have h := ih (lfsr x)
    simp only [edgeCount, decorate_cons, List.filter_cons] at h ⊢
    rcases edgeDecision_le_one x P with h0 | h1
    · rw [h0]
      simp only [Nat.zero_ne_one, decide_False, Bool.false_eq_true, if_false]
      split
      · simp only [List.length_cons]; omega
      · exact h
    · rw [h1, edgeDecision_mono x P h1]
      simpa using h

/-! ## The step `lfsr` -/

/-- C1: for every 32-bit state `w`, `lfsr` yields `(w >> 1) | (fb << 31)` with
`fb = (w ^ (w>>16) ^ (w>>25) ^ (w>>30)) & 1`, no truncation taking effect: bit `k` of the
result is bit `k + 1` of `w` for `k < 31`, bit 31 is the feedback bit, and the result is
again below `2 ^ 32`. -/
theorem lfsr_shift_insert (w : Nat) (hw : w < 2 ^ 32) :
    lfsr w = (w >>> 1) ||| (feedbackShift w <<< 31) ∧
    feedbackShift w ≤ 1 ∧
    lfsr w = w / 2 + 2 ^ 31 * feedbackShift w ∧
    (∀ k, k < 31 → (lfsr w).testBit k = w.testBit (k + 1)) ∧
    (lfsr w).testBit 31 = decide (feedbackShift w = 1) ∧
    lfsr w < 2 ^ 32 := by
  have hfb : feedbackShift w ≤ 1 := by
    unfold feedbackShift
    rw [Nat.and_one_is_mod]
    omega
  have hnt : (feedbackShift w <<< 31) % 2 ^ 32 = feedbackShift w <<< 31 := by
    apply Nat.mod_eq_of_lt
    rw [Nat.shiftLeft_eq]
    omega
  have hform : lfsr w = (w >>> 1) ||| (feedbackShift w <<< 31) := by
    show (w >>> 1) ||| ((feedbackShift w <<< 31) % 2 ^ 32) = _
    rw [hnt]
  have harith : lfsr w = w / 2 + 2 ^ 31 * feedbackShift w := by
    rw [hform, Nat.shiftRight_eq_div_pow, or_high_bit _ _ (by omega)]
  refine ⟨hform, hfb, harith, ?_, ?_, by omega⟩
  · intro k hk
    rw [hform, Nat.testBit_or, Nat.testBit_shiftRight, Nat.testBit_shiftLeft]
    have : ¬ k ≥ 31 := by omega
    simp [this, Nat.add_comm]
  · rw [hform, Nat.testBit_or, Nat.testBit_shiftRight, Nat.testBit_shiftLeft,
      Nat.testBit_lt_two_pow (by simpa using hw)]
    have h01 : feedbackShift w = 0 ∨ feedbackShift w = 1 := by omega
    rcases h01 with h | h <;> simp [h]

/-- C1, instance: the state `0x00010001`, in which two of the four taps are set. -/
theorem lfsr_shift_insert_witness :
    (0x00010001 : Nat) < 2 ^ 32 ∧
    (lfsr 0x00010001 = (0x00010001 >>> 1) ||| (feedbackShift 0x00010001 <<< 31) ∧
     feedbackShift 0x00010001 ≤ 1 ∧
     lfsr 0x00010001 = 0x00010001 / 2 + 2 ^ 31 * feedbackShift 0x00010001 ∧
     (∀ k, k < 31 → (lfsr 0x00010001).testBit k = (0x00010001 : Nat).testBit (k + 1)) ∧
     (lfsr 0x00010001).testBit 31 = decide (feedbackShift 0x00010001 = 1) ∧
     lfsr 0x00010001 < 2 ^ 32) :=
  ⟨by decide, lfsr_shift_insert 0x00010001 (by decide)⟩

/-! ## The generation loop -/

/-- C2: with `V` a 32-bit vertex count and an iteration budget above `V`, the run from the
seed `S` returns, and record number `k` (from 0) carries edge bit 1 when
`(lfsr^[k] S & 0xF) < P` and 0 otherwise; the first decision is taken on `S` itself and
the final value of `my32` is `S` advanced once per written record. -/
theorem edge_bit_follows_state (V P S fuel : Nat) (hV : V < 2 ^ 32) (hf : V < fuel) :
    ∃ st, generateFrom S fuel V P = some st ∧
      (∀ k (hk : k < st.out.length),
        (st.out[k]).2.2 = if ((lfsr^[k] S) &&& 0xf) < P then 1 else 0) ∧
      (∀ (h0 : 0 < st.out.length), (st.out[0]).2.2 = if (S &&& 0xf) < P then 1 else 0) ∧
      st.my32 = lfsr^[st.out.length] S := by
  refine ⟨_, generateFrom_closed S fuel V P hV hf, ?_, ?_, ?_⟩
  · intro k hk
    have h := getElem?_decorate P (pairsLex V) S k
    rw [List.getElem?_eq_getElem hk] at h
    rw [length_decorate] at hk
    rw [List.getElem?_eq_getElem hk, Option.map_some', Option.some.injEq] at h
    show ((decorate P (pairsLex V) S)[k]).2.2 = _
    rw [h]
    rfl
  · intro h0
    have h := getElem?_decorate P (pairsLex V) S 0
    rw [List.getElem?_eq_getElem h0] at h
    rw [length_decorate] at h0
    rw [List.getElem?_eq_getElem h0, Option.map_some', Option.some.injEq] at h
    show ((decorate P (pairsLex V) S)[0]).2.2 = _
    rw [h]
    rfl
  · show lfsr^[(pairsLex V).length] S = lfsr^[(decorate P (pairsLex V) S).length] S
    rw [length_decorate]

/-- C2, instance: three vertices, level 8, the reference seed, budget 4. -/
theorem edge_bit_follows_state_witness :
    (3 : Nat) < 2 ^ 32 ∧ (3 : Nat) < 4 ∧
    ∃ st, generateFrom seed0 4 3 8 = some st ∧
      (∀ k (hk : k < st.out.length),
        (st.out[k]).2.2 = if ((lfsr^[k] seed0) &&& 0xf) < 8 then 1 else 0) ∧
      (∀ (h0 : 0 < st.out.length), (st.out[0]).2.2 = if (seed0 &&& 0xf) < 8 then 1 else 0) ∧
      st.my32 = lfsr^[st.out.length] seed0 :=
  ⟨by decide, by decide, edge_bit_follows_state 3 8 seed0 4 (by decide) (by decide)⟩

/-- C3: the pairs `(i, j)` of the written records, in order, are the list `pairsLex V`
(`i` ascending outside, `j` ascending from `i + 1` to `V - 1` inside), which holds exactly
the pairs with `i < j < V` and is strictly increasing in the lexicographic order. -/
theorem pairs_in_lex_order (V P S fuel : Nat) (hV : V < 2 ^ 32) (hf : V < fuel) :
    ∃ rs, emitted S fuel V P = some rs ∧
      rs.map (fun r => (r.1, r.2.1)) = pairsLex V ∧
      (∀ a b, (a, b) ∈ pairsLex V ↔ a < b ∧ b < V) ∧
      (pairsLex V).Pairwise lexLt := by
  exact ⟨_, emitted_closed S fuel V P hV hf, map_pair_decorate P _ S,
    mem_pairsLex V, pairsLex_sorted V⟩

/-- C3, instance: four vertices, level 8, the reference seed, budget 5. -/
theorem pairs_in_lex_order_witness :
    (4 : Nat) < 2 ^ 32 ∧ (4 : Nat) < 5 ∧
    ∃ rs, emitted seed0 5 4 8 = some rs ∧
      rs.map (fun r => (r.1, r.2.1)) = pairsLex 4 ∧
      (∀ a b, (a, b) ∈ pairsLex 4 ↔ a < b ∧ b < 4) ∧
      (pairsLex 4).Pairwise lexLt :=
  ⟨by decide, by decide, pairs_in_lex_order 4 8 seed0 5 (by decide) (by decide)⟩

theorem mem_decorate (P : Nat) (ps : List (Nat × Nat)) (x : Nat) (r : EdgeRecord)
    (hr : r ∈ decorate P ps x) :
    (r.1, r.2.1) ∈ ps ∧ (r.2.2 = 0 ∨ r.2.2 = 1) := by
  obtain ⟨k, hk, rfl⟩ := List.getElem_of_mem hr
  have h := getElem?_decorate P ps x k
  rw [List.getElem?_eq_getElem hk] at h
  rw [length_decorate] at hk
  rw [List.getElem?_eq_getElem hk, Option.map_some', Option.some.injEq] at h
  rw [h]
  exact ⟨List.getElem_mem hk, edgeDecision_le_one _ P⟩

theorem countP_eq_one_of_nodup {α : Type} [DecidableEq α] (l : List α) (a : α)
    (hn : l.Nodup) (ha : a ∈ l) : l.countP (fun x => decide (x = a)) = 1 := by
  have h := List.count_eq_one_of_mem hn ha
  rw [List.count] at h
  rw [← h]
  apply List.countP_congr
  intro x _
  simp

/-- C4: with `V` a 32-bit vertex count and an iteration budget above `V`, the run returns
and has written exactly `V * (V - 1) / 2` records; each record has `i < j < V` and an edge
bit in `{0, 1}`; and each unordered pair of distinct vertices below `V` is the pair of
exactly one record. -/
theorem cardinality_and_coverage (V P S fuel : Nat) (hV : V < 2 ^ 32) (hf : V < fuel) :
    ∃ rs, emitted S fuel V P = some rs ∧
      rs.length = V * (V - 1) / 2 ∧
      (∀ r ∈ rs, r.1 < r.2.1 ∧ r.2.1 < V ∧ (r.2.2 = 0 ∨ r.2.2 = 1)) ∧
      (∀ a b, a < V → b < V → a ≠ b →
        rs.countP (fun r => (r.1 = a ∧ r.2.1 = b) ∨ (r.1 = b ∧ r.2.1 = a)) = 1) := by
  have hall : ∀ r ∈ decorate P (pairsLex V) S,
      r.1 < r.2.1 ∧ r.2.1 < V ∧ (r.2.2 = 0 ∨ r.2.2 = 1) := by
    intro r hr
    obtain ⟨hp, hb⟩ := mem_decorate P _ S r hr
    have := (mem_pairsLex V r.1 r.2.1).1 hp
    exact ⟨this.1, this.2, hb⟩
  have hone : ∀ a b, a < b → b < V →
      (decorate P (pairsLex V) S).countP (fun r => (r.1 = a ∧ r.2.1 = b)) = 1 := by
    intro a b hab hb
    have h1 := countP_eq_one_of_nodup (pairsLex V) (a, b) (pairsLex_nodup V)
      ((mem_pairsLex V a b).2 ⟨hab, hb⟩)
    rw [← map_pair_decorate P (pairsLex V) S, List.countP_map] at h1
    rw [← h1]
    apply List.countP_congr
    intro r _
    simp only [Function.comp_apply, decide_eq_true_eq, Prod.mk.injEq]
  refine ⟨_, emitted_closed S fuel V P hV hf, ?_, hall, ?_⟩
  · rw [length_decorate, length_pairsLex]
  · intro a b ha hb hne
    rcases Nat.lt_or_gt_of_ne hne with hab | hba
    · rw [← hone a b hab hb]
      apply List.countP_congr
      intro r hr
      have := (hall r hr).1
      simp only [decide_eq_true_eq]
      constructor
      · rintro (h | ⟨h1, h2⟩)
        · exact h
        · omega
      · exact Or.inl
    · rw [← hone b a hba ha]
      apply List.countP_congr
      intro r hr
      have := (hall r hr).1
      simp only [decide_eq_true_eq]
      constructor
      · rintro (⟨h1, h2⟩ | h)
        · omega
        · exact h
      · exact Or.inr

/-- C4, instance: four vertices, level 8, the reference seed, budget 5. -/
theorem cardinality_and_coverage_witness :
    (4 : Nat) < 2 ^ 32 ∧ (4 : Nat) < 5 ∧
    ∃ rs, emitted seed0 5 4 8 = some rs ∧
      rs.length = 4 * (4 - 1) / 2 ∧
      (∀ r ∈ rs, r.1 < r.2.1 ∧ r.2.1 < 4 ∧ (r.2.2 = 0 ∨ r.2.2 = 1)) ∧
      (∀ a b, a < 4 → b < 4 → a ≠ b →
        rs.countP (fun r => (r.1 = a ∧ r.2.1 = b) ∨ (r.1 = b ∧ r.2.1 = a)) = 1) :=
  ⟨by decide, by decide, cardinality_and_coverage 4 8 seed0 5 (by decide) (by decide)⟩

/-! ## The feedback bit -/

theorem xor_bits (a b c d : Nat) :
    (a ^^^ b ^^^ c ^^^ d) &&& 1 = (a &&& 1) ^^^ (b &&& 1) ^^^ (c &&& 1) ^^^ (d &&& 1) := by
  rw [Nat.and_xor_distrib_right, Nat.and_xor_distrib_right, Nat.and_xor_distrib_right]

/-- C5, as stated, fails: for the state `0x00010000` the bit that `lfsr` puts into
bit 31 is 1 and the shift formula gives 1, whereas `bit 0 XOR bit 15 XOR bit 24 XOR bit 29`
of that state is 0; so the formula with the positions 15, 24, 29 neither gives the
inserted bit nor denotes the same function as the shift formula. -/
theorem feedback_positions_15_24_29_refuted :
    (lfsr 0x00010000 >>> 31 = 1 ∧ feedbackShift 0x00010000 = 1 ∧
      bitAt 0x00010000 0 ^^^ bitAt 0x00010000 15 ^^^ bitAt 0x00010000 24
        ^^^ bitAt 0x00010000 29 = 0) ∧
    ¬ (∀ w, w < 2 ^ 32 →
        lfsr w >>> 31 = bitAt w 0 ^^^ bitAt w 15 ^^^ bitAt w 24 ^^^ bitAt w 29) ∧
    ¬ (∀ w, w < 2 ^ 32 →
        feedbackShift w = bitAt w 0 ^^^ bitAt w 15 ^^^ bitAt w 24 ^^^ bitAt w 29) := by
  refine ⟨by decide, ?_, ?_⟩
  · intro h
    have h1 := h 0x00010000 (by decide)
    revert h1
    decide
  · intro h
    have h1 := h 0x00010000 (by decide)
    revert h1
    decide

/-- C5, amended: for every 32-bit state, the bit that `lfsr` inserts into bit 31 equals
`bit(state,0) XOR bit(state,16) XOR bit(state,25) XOR bit(state,30)`, and this
bit-position formula and the shift formula of the code are the same function. -/
theorem feedback_positions_16_25_30 (w : Nat) (hw : w < 2 ^ 32) :
    lfsr w >>> 31 = bitAt w 0 ^^^ bitAt w 16 ^^^ bitAt w 25 ^^^ bitAt w 30 ∧
    feedbackShift w = bitAt w 0 ^^^ bitAt w 16 ^^^ bitAt w 25 ^^^ bitAt w 30 ∧
    (lfsr w).testBit 31 =
      xor (xor (xor (w.testBit 0) (w.testBit 16)) (w.testBit 25)) (w.testBit 30) := by
  have hbits : feedbackShift w = bitAt w 0 ^^^ bitAt w 16 ^^^ bitAt w 25 ^^^ bitAt w 30 := by
    unfold feedbackShift bitAt
    rw [xor_bits, Nat.shiftRight_zero]
  have hfb : feedbackShift w = (w + w / 2 ^ 16 + w / 2 ^ 25 + w / 2 ^ 30) % 2 :=
    feedback_eq_mod w
  refine ⟨?_, hbits, ?_⟩
  · rw [← hbits, hfb, lfsr_arith w hw, Nat.shiftRight_eq_div_pow]
    omega
  · have hform : lfsr w = (w >>> 1) ||| (feedbackShift w <<< 31) := by
      have hnt : (feedbackShift w <<< 31) % 2 ^ 32 = feedbackShift w <<< 31 := by
        apply Nat.mod_eq_of_lt
        rw [Nat.shiftLeft_eq, hfb]
        omega
      show (w >>> 1) ||| ((feedbackShift w <<< 31) % 2 ^ 32) = _
      rw [hnt]
    rw [hform, Nat.testBit_or, Nat.testBit_shiftRight, Nat.testBit_shiftLeft,
      Nat.testBit_lt_two_pow (by simpa using hw)]
    simp only [feedbackShift, ge_iff_le, le_refl, decide_True, Nat.sub_self, Bool.true_and,
      Bool.false_or, Nat.testBit_and, Nat.testBit_xor, Nat.testBit_shiftRight, Nat.add_zero,
      Nat.testBit_one_zero, Bool.and_true]

/-- C5 amended, instance: the state `0x00010000`, whose only set bit is tap bit 16. -/
theorem feedback_positions_16_25_30_witness :
    (0x00010000 : Nat) < 2 ^ 32 ∧
    (lfsr 0x00010000 >>> 31 =
        bitAt 0x00010000 0 ^^^ bitAt 0x00010000 16 ^^^ bitAt 0x00010000 25
          ^^^ bitAt 0x00010000 30 ∧
     feedbackShift 0x00010000 =
        bitAt 0x00010000 0 ^^^ bitAt 0x00010000 16 ^^^ bitAt 0x00010000 25
          ^^^ bitAt 0x00010000 30 ∧
     (lfsr 0x00010000).testBit 31 =
        xor (xor (xor ((0x00010000 : Nat).testBit 0) ((0x00010000 : Nat).testBit 16))
          ((0x00010000 : Nat).testBit 25)) ((0x00010000 : Nat).testBit 30)) :=
  ⟨by decide, feedback_positions_16_25_30 0x00010000 (by decide)⟩

/-! ## The zero state -/

/-- C6: for every 32-bit state `s`, `lfsr s = 0` exactly when `s = 0`; zero is a fixed
point; from a non-zero state no number of steps (in particular 32) reaches 0; and no
state reached from the reference seed `0xb16b00b5` is 0. -/
theorem zero_only_from_zero (s : Nat) (hs : s < 2 ^ 32) :
    (lfsr s = 0 ↔ s = 0) ∧
    lfsr 0 = 0 ∧
    (s ≠ 0 → ∀ n, lfsr^[n] s ≠ 0) ∧
    (s ≠ 0 → lfsr^[32] s ≠ 0) ∧
    (∀ n, lfsr^[n] seed0 ≠ 0) := by
  have hiter : ∀ t, t < 2 ^ 32 → t ≠ 0 → ∀ n, lfsr^[n] t ≠ 0 := by
    intro t ht hne n
    induction n with
    | zero => simpa using hne
    | succ n ih =>
      rw [Function.iterate_succ_apply']
      intro h0
      exact ih ((lfsr_eq_zero_iff _ (iterate_lfsr_lt t ht n)).1 h0)
  exact ⟨lfsr_eq_zero_iff s hs, rfl, hiter s hs, fun h => hiter s hs h 32,
    hiter seed0 (by decide) (by decide)⟩

/-- C6, instance: the state 1, whose successor is `0x80000000`. -/
theorem zero_only_from_zero_witness :
    (1 : Nat) < 2 ^ 32 ∧
    ((lfsr 1 = 0 ↔ (1 : Nat) = 0) ∧
     lfsr 0 = 0 ∧
     ((1 : Nat) ≠ 0 → ∀ n, lfsr^[n] 1 ≠ 0) ∧
     ((1 : Nat) ≠ 0 → lfsr^[32] 1 ≠ 0) ∧
     (∀ n, lfsr^[n] seed0 ≠ 0)) :=
  ⟨by decide, zero_only_from_zero 1 (by decide)⟩

/-! ## The level is used as given -/

/-- C7, as stated, fails: called with level 0 or level 16 the generator returns normally
with records written from that very level (nothing is rejected), and what it writes
differs from what it writes for every level in `[1, 15]` (nothing is clamped). -/
theorem level_out_of_range_not_rejected :
    (generate_adjacency_list 3 2 0).map GenState.out = some [(0, 1, 0)] ∧
    (generate_adjacency_list 3 2 16).map GenState.out = some [(0, 1, 1)] ∧
    (∀ P, P < 16 → 1 ≤ P →
      (generate_adjacency_list 6 5 0).map GenState.out
        ≠ (generate_adjacency_list 6 5 P).map GenState.out) ∧
    (∀ P, P < 16 → 1 ≤ P →
      (generate_adjacency_list 12 11 16).map GenState.out
        ≠ (generate_adjacency_list 12 11 P).map GenState.out) := by
  refine ⟨by decide, by decide, ?_, ?_⟩
  · intro P h16 h1
    interval_cases P <;> decide
  · intro P h16 h1
    interval_cases P <;> decide

theorem decorate_level_zero (ps : List (Nat × Nat)) (x : Nat) :
    ∀ r ∈ decorate 0 ps x, r.2.2 = 0 := by
  intro r hr
  obtain ⟨k, hk, rfl⟩ := List.getElem_of_mem hr
  have h := getElem?_decorate 0 ps x k
  rw [List.getElem?_eq_getElem hk] at h
  rw [length_decorate] at hk
  rw [List.getElem?_eq_getElem hk, Option.map_some', Option.some.injEq] at h
  rw [h]
  simp [edgeDecision]

theorem and_0xf_lt (s : Nat) : s &&& 0xf < 16 := by
  have h := Nat.and_pow_two_sub_one_eq_mod s 4
  norm_num at h
  rw [h]
  omega

theorem decorate_level_high (P : Nat) (hP : 16 ≤ P) (ps : List (Nat × Nat)) (x : Nat) :
    ∀ r ∈ decorate P ps x, r.2.2 = 1 := by
  intro r hr
  obtain ⟨k, hk, rfl⟩ := List.getElem_of_mem hr
  have h := getElem?_decorate P ps x k
  rw [List.getElem?_eq_getElem hk] at h
  rw [length_decorate] at hk
  rw [List.getElem?_eq_getElem hk, Option.map_some', Option.some.injEq] at h
  rw [h]
  have := and_0xf_lt (lfsr^[k] x)
  show edgeDecision _ P = 1
  unfold edgeDecision
  rw [if_pos (by omega)]

/-- C7, amended: `generate_adjacency_list` applies no range check to the level. For every
level, inside `[1, 15]` or not, the run returns with all `V * (V - 1) / 2` records
written, record `k` carrying bit 1 exactly when the sample of state `k` is below the level
as given; hence level 0 writes only 0 bits and a level of 16 or more writes only 1 bits. -/
theorem level_used_as_given (V P fuel : Nat) (hV : V < 2 ^ 32) (hf : V < fuel) :
    ∃ rs, (generate_adjacency_list fuel V P).map GenState.out = some rs ∧
      rs.length = V * (V - 1) / 2 ∧
      (∀ k (hk : k < rs.length),
        (rs[k]).2.2 = if ((lfsr^[k] seed0) &&& 0xf) < P then 1 else 0) ∧
      (P = 0 → ∀ r ∈ rs, r.2.2 = 0) ∧
      (16 ≤ P → ∀ r ∈ rs, r.2.2 = 1) := by
  refine ⟨_, emitted_closed seed0 fuel V P hV hf, ?_, ?_, ?_, ?_⟩
  · rw [length_decorate, length_pairsLex]
  · intro k hk
    have h := getElem?_decorate P (pairsLex V) seed0 k
    rw [List.getElem?_eq_getElem hk] at h
    rw [length_decorate] at hk
    rw [List.getElem?_eq_getElem hk, Option.map_some', Option.some.injEq] at h
    rw [h]
    rfl
  · rintro rfl
    exact decorate_level_zero _ _
  · intro hP
    exact decorate_level_high P hP _ _

/-- C7 amended, instance: eleven vertices, level 16, budget 12. -/
theorem level_used_as_given_witness :
    (11 : Nat) < 2 ^ 32 ∧ (11 : Nat) < 12 ∧
    ∃ rs, (generate_adjacency_list 12 11 16).map GenState.out = some rs ∧
      rs.length = 11 * (11 - 1) / 2 ∧
      (∀ k (hk : k < rs.length),
        (rs[k]).2.2 = if ((lfsr^[k] seed0) &&& 0xf) < 16 then 1 else 0) ∧
      ((16 : Nat) = 0 → ∀ r ∈ rs, r.2.2 = 0) ∧
      ((16 : Nat) ≤ 16 → ∀ r ∈ rs, r.2.2 = 1) :=
  ⟨by decide, by decide, level_used_as_given 11 16 12 (by decide) (by decide)⟩

/-! ## Threshold -/

/-- C8: for a fixed seed and vertex count, the runs with levels `k` and `k + 1` both
return, write the same pairs in the same order, end in the same state, and take their
decisions on the same states; each record with bit 1 at level `k` has bit 1 at level
`k + 1`, and the number of records with bit 1 does not decrease. -/
theorem threshold_monotone (S V k fuel : Nat) (hV : V < 2 ^ 32) (hf : V < fuel) :
    ∃ lo hi, generateFrom S fuel V k = some lo ∧ generateFrom S fuel V (k + 1) = some hi ∧
      lo.out.map (fun r => (r.1, r.2.1)) = hi.out.map (fun r => (r.1, r.2.1)) ∧
      lo.my32 = hi.my32 ∧
      (∀ n (h1 : n < lo.out.length) (h2 : n < hi.out.length),
        (lo.out[n]).2.2 = edgeDecision (lfsr^[n] S) k ∧
        (hi.out[n]).2.2 = edgeDecision (lfsr^[n] S) (k + 1) ∧
        ((lo.out[n]).2.2 = 1 → (hi.out[n]).2.2 = 1)) ∧
      edgeCount lo.out ≤ edgeCount hi.out := by
  refine ⟨_, _, generateFrom_closed S fuel V k hV hf,
    generateFrom_closed S fuel V (k + 1) hV hf, ?_, rfl, ?_, ?_⟩
  · show (decorate k (pairsLex V) S).map _ = (decorate (k + 1) (pairsLex V) S).map _
    rw [map_pair_decorate, map_pair_decorate]
  · intro n h1 h2
    have e1 := getElem?_decorate k (pairsLex V) S n
    have e2 := getElem?_decorate (k + 1) (pairsLex V) S n
    rw [List.getElem?_eq_getElem h1] at e1
    rw [List.getElem?_eq_getElem h2] at e2
    have hn : n < (pairsLex V).length := by
      have := h1
      rwa [length_decorate] at this
    rw [List.getElem?_eq_getElem hn, Option.map_some', Option.some.injEq] at e1 e2
    show ((decorate k (pairsLex V) S)[n]).2.2 = _ ∧
      ((decorate (k + 1) (pairsLex V) S)[n]).2.2 = _ ∧
      (((decorate k (pairsLex V) S)[n]).2.2 = 1 → ((decorate (k + 1) (pairsLex V) S)[n]).2.2 = 1)
    rw [e1, e2]
    exact ⟨rfl, rfl, edgeDecision_mono _ k⟩
  · exact edgeCount_decorate_mono k (pairsLex V) S

/-- C8, instance: eleven vertices, levels 15 and 16, the reference seed, budget 12. -/
theorem threshold_monotone_witness :
    (11 : Nat) < 2 ^ 32 ∧ (11 : Nat) < 12 ∧
    ∃ lo hi, generateFrom seed0 12 11 15 = some lo ∧
      generateFrom seed0 12 11 (15 + 1) = some hi ∧
      lo.out.map (fun r => (r.1, r.2.1)) = hi.out.map (fun r => (r.1, r.2.1)) ∧
      lo.my32 = hi.my32 ∧
      (∀ n (h1 : n < lo.out.length) (h2 : n < hi.out.length),
        (lo.out[n]).2.2 = edgeDecision (lfsr^[n] seed0) 15 ∧
        (hi.out[n]).2.2 = edgeDecision (lfsr^[n] seed0) (15 + 1) ∧
        ((lo.out[n]).2.2 = 1 → (hi.out[n]).2.2 = 1)) ∧
      edgeCount lo.out ≤ edgeCount hi.out :=
  ⟨by decide, by decide, threshold_monotone seed0 11 15 12 (by decide) (by decide)⟩

/-- C9: the level is a strict upper bound on the 4-bit sample: the sample `state & 0xF`
is below 16, the edge bit is 1 exactly when the sample is below the level, and for every
level `L ≤ 16` exactly `L` of the 16 sample values give bit 1; so level 8 accepts 8 of 16,
level 4 accepts 4, level 15 accepts all but sample 15, and level 0 accepts none. -/
theorem level_accepts_L_of_16 (L : Nat) (hL : L ≤ 16) :
    ((List.range 16).filter (fun v => edgeDecision v L = 1)).length = L ∧
    (∀ state, (state &&& 0xf) < 16 ∧
      (edgeDecision state L = 1 ↔ (state &&& 0xf) < L) ∧
      (edgeDecision state L = 0 ↔ L ≤ (state &&& 0xf)) ∧
      edgeDecision state L = edgeDecision (state &&& 0xf) L) ∧
    ((List.range 16).filter (fun v => edgeDecision v 8 = 1)).length = 8 ∧
    ((List.range 16).filter (fun v => edgeDecision v 4 = 1)).length = 4 ∧
    ((List.range 16).filter (fun v => edgeDecision v 15 = 1)).length = 15 ∧
    (∀ state, edgeDecision state 15 = 0 ↔ (state &&& 0xf) = 15) ∧
    (∀ state, edgeDecision state 0 = 0) := by
  refine ⟨?_, ?_, by decide, by decide, by decide, ?_, ?_⟩
  · interval_cases L <;> decide
  · intro state
    have hlt := and_0xf_lt state
    have hidem : (state &&& 0xf) &&& 0xf = state &&& 0xf := by
      rw [Nat.and_assoc, Nat.and_self]
    refine ⟨hlt, ?_, ?_, ?_⟩
    · unfold edgeDecision
      split <;> simp [*]
    · unfold edgeDecision
      split
      · simp; omega
      · simp; omega
    · unfold edgeDecision
      rw [hidem]
  · intro state
    have hlt := and_0xf_lt state
    unfold edgeDecision
    split
    · simp; omega
    · simp; omega
  · intro state
    simp [edgeDecision]

/-- C9, instance: level 8. -/
theorem level_accepts_L_of_16_witness :
    (8 : Nat) ≤ 16 ∧
    (((List.range 16).filter (fun v => edgeDecision v 8 = 1)).length = 8 ∧
    (∀ state, (state &&& 0xf) < 16 ∧
      (edgeDecision state 8 = 1 ↔ (state &&& 0xf) < 8) ∧
      (edgeDecision state 8 = 0 ↔ 8 ≤ (state &&& 0xf)) ∧
      edgeDecision state 8 = edgeDecision (state &&& 0xf) 8) ∧
    ((List.range 16).filter (fun v => edgeDecision v 8 = 1)).length = 8 ∧
    ((List.range 16).filter (fun v => edgeDecision v 4 = 1)).length = 4 ∧
    ((List.range 16).filter (fun v => edgeDecision v 15 = 1)).length = 15 ∧
    (∀ state, edgeDecision state 15 = 0 ↔ (state &&& 0xf) = 15) ∧
    (∀ state, edgeDecision state 0 = 0)) :=
  ⟨by decide, level_accepts_L_of_16 8 (by decide)⟩

/-! ## The reference scenario -/

/-- C10: from the seed `0xb16b00b5` with `V = 3` and `P = 8`, every budget of at least 4
yields exactly the records `(0,1,1)`, `(0,2,0)`, `(1,2,0)` in that order; the samples used
are 5, 10 and 13, the first being `seed & 0xF`; the states after the three steps are
`0x58b5805a`, `0x2c5ac02d` and `0x962d6016`, the last being the final value of `my32`. -/
theorem scenario_reference_seed :
    (∀ extra, generate_adjacency_list (extra + 4) 3 8 =
      some { i := 3, j := 4, my32 := 0x962d6016,
             out := [(0, 1, 1), (0, 2, 0), (1, 2, 0)] }) ∧
    seed0 = 0xb16b00b5 ∧
    seed0 &&& 0xf = 5 ∧ (lfsr seed0) &&& 0xf = 10 ∧ (lfsr (lfsr seed0)) &&& 0xf = 13 ∧
    lfsr seed0 = 0x58b5805a ∧
    lfsr (lfsr seed0) = 0x2c5ac02d ∧
    lfsr (lfsr (lfsr seed0)) = 0x962d6016 := by
  refine ⟨?_, rfl, by decide, by decide, by decide, by decide, by decide, by decide⟩
  intro extra
  rw [generate_adjacency_list, generateFrom_closed seed0 (extra + 4) 3 8 (by decide) (by omega)]
  decide

/-! ## Boundary -/

/-- C11: for `num_vertices = 0` and for `num_vertices = 1`, with any level, any seed and
any positive iteration budget (at least 2 for one vertex), the run returns normally, has
written no record, and leaves `my32` at the seed: the LFSR is never stepped. -/
theorem boundary_zero_one (P S extra : Nat) :
    generateFrom S (extra + 1) 0 P = some { i := 0, j := 1, my32 := S, out := [] } ∧
    generateFrom S (extra + 2) 1 P = some { i := 1, j := 2, my32 := S, out := [] } ∧
    emitted S (extra + 1) 0 P = some [] ∧
    emitted S (extra + 2) 1 P = some [] ∧
    (generate_adjacency_list (extra + 1) 0 P).map GenState.out = some [] ∧
    (generate_adjacency_list (extra + 2) 1 P).map GenState.out = some [] := by
  have h0 : generateFrom S (extra + 1) 0 P = some { i := 0, j := 1, my32 := S, out := [] } := by
    simp [generateFrom, outerLoop]
  have h1 : generateFrom S (extra + 2) 1 P = some { i := 1, j := 2, my32 := S, out := [] } := by
    simp [generateFrom, outerLoop, innerLoop]
  have g0 : generateFrom seed0 (extra + 1) 0 P
      = some { i := 0, j := 1, my32 := seed0, out := [] } := by
    simp [generateFrom, outerLoop]
  have g1 : generateFrom seed0 (extra + 2) 1 P
      = some { i := 1, j := 2, my32 := seed0, out := [] } := by
    simp [generateFrom, outerLoop, innerLoop]
  refine ⟨h0, h1, ?_, ?_, ?_, ?_⟩
  · simp [emitted, h0]
  · simp [emitted, h1]
  · simp [generate_adjacency_list, g0]
  · simp [generate_adjacency_list, g1]

/-! ## Independence of the iteration budget -/

theorem innerLoop_fuel_succ (V P : Nat) :
    ∀ (fuel : Nat) (s t : GenState), innerLoop V P fuel s = some t →
      innerLoop V P (fuel + 1) s = some t := by
  intro fuel
  induction fuel with
  | zero => intro s t h; simp [innerLoop] at h
  | succ f ih =>
    intro s t h
    rw [innerLoop] at h ⊢
    by_cases hj : s.j < V
    · simp only [hj, if_true] at h ⊢
      exact ih _ _ h
    · simp only [hj, if_false] at h ⊢
      exact h

theorem innerLoop_fuel_le (V P : Nat) (f f2 : Nat) (hle : f ≤ f2) (s t : GenState)
    (h : innerLoop V P f s = some t) : innerLoop V P f2 s = some t := by
  induction hle with
  | refl => exact h
  | step _ ih => exact innerLoop_fuel_succ V P _ s t ih

theorem outerLoop_fuel_le (V P : Nat) (fi fi2 : Nat) (hi : fi ≤ fi2) :
    ∀ (fo fo2 : Nat) (s t : GenState), fo ≤ fo2 → outerLoop V P fi fo s = some t →
      outerLoop V P fi2 fo2 s = some t := by
  intro fo
  induction fo with
  | zero => intro fo2 s t _ h; simp [outerLoop] at h
  | succ f ih =>
    intro fo2 s t hle h
    obtain ⟨g, rfl⟩ : ∃ g, fo2 = g + 1 := ⟨fo2 - 1, by omega⟩
    rw [outerLoop] at h ⊢
    by_cases hlt : s.i < V
    · simp only [hlt, if_true] at h ⊢
      cases hin : innerLoop V P fi s with
      | none => simp [hin] at h
      | some u =>
        rw [hin] at h
        rw [innerLoop_fuel_le V P fi fi2 hi s u hin]
        exact ih g _ t (by omega) h
    · simp only [hlt, if_false] at h ⊢
      exact h

theorem generateFrom_fuel_le (S V P f f2 : Nat) (hle : f ≤ f2) (a : GenState)
    (h : generateFrom S f V P = some a) : generateFrom S f2 V P = some a :=
  outerLoop_fuel_le V P f f2 hle f f2 _ a hle h

/-- C14: the result of a run is a function of the seed, the vertex count and the level
only. Two runs with the same three values that both return, whatever their iteration
budgets, end in the same state with the same records; for a 32-bit vertex count every
budget above `V` returns that state, whose records are the pairs of `pairsLex V` decorated
from the seed; and `generate_adjacency_list` is the run from the constant `0xb16b00b5`. -/
theorem deterministic_output (S V P f1 f2 : Nat) (a b : GenState)
    (h1 : generateFrom S f1 V P = some a) (h2 : generateFrom S f2 V P = some b) :
    a = b ∧
    emitted S f1 V P = emitted S f2 V P ∧
    (V < 2 ^ 32 → a.out = decorate P (pairsLex V) S ∧
      ∀ f, V < f → generateFrom S f V P = some a) ∧
    (∀ f, generate_adjacency_list f V P = generateFrom 0xb16b00b5 f V P) := by
  have hab : a = b := by
    have e1 := generateFrom_fuel_le S V P f1 (max f1 f2) (le_max_left _ _) a h1
    have e2 := generateFrom_fuel_le S V P f2 (max f1 f2) (le_max_right _ _) b h2
    rw [e1] at e2
    exact Option.some.inj e2
  refine ⟨hab, ?_, ?_, fun _ => rfl⟩
  · simp [emitted, h1, h2, hab]
  · intro hV
    have hc := generateFrom_closed S (max f1 (V + 1)) V P hV (by omega)
    have e1 := generateFrom_fuel_le S V P f1 (max f1 (V + 1)) (le_max_left _ _) a h1
    rw [hc] at e1
    have ha := Option.some.inj e1
    refine ⟨by rw [← ha], ?_⟩
    intro f hf
    rw [generateFrom_closed S f V P hV hf, ← ha]

/-- C14, instance: two runs for three vertices at level 8 with budgets 4 and 9. -/
theorem deterministic_output_witness :
    generateFrom seed0 4 3 8 = some ⟨3, 4, 0x962d6016, [(0, 1, 1), (0, 2, 0), (1, 2, 0)]⟩ ∧
    generateFrom seed0 9 3 8 = some ⟨3, 4, 0x962d6016, [(0, 1, 1), (0, 2, 0), (1, 2, 0)]⟩ ∧
    ((⟨3, 4, 0x962d6016, [(0, 1, 1), (0, 2, 0), (1, 2, 0)]⟩ : GenState)
        = ⟨3, 4, 0x962d6016, [(0, 1, 1), (0, 2, 0), (1, 2, 0)]⟩ ∧
      emitted seed0 4 3 8 = emitted seed0 9 3 8 ∧
      ((3 : Nat) < 2 ^ 32 →
        (⟨3, 4, 0x962d6016, [(0, 1, 1), (0, 2, 0), (1, 2, 0)]⟩ : GenState).out
          = decorate 8 (pairsLex 3) seed0 ∧
        ∀ f, 3 < f → generateFrom seed0 f 3 8
          = some ⟨3, 4, 0x962d6016, [(0, 1, 1), (0, 2, 0), (1, 2, 0)]⟩) ∧
      (∀ f, generate_adjacency_list f 3 8 = generateFrom 0xb16b00b5 f 3 8)) :=
  ⟨by decide, by decide,
    deterministic_output seed0 3 8 4 9 _ _ (by decide) (by decide)⟩

/-! ## Parameter collection -/

theorem acceptance_iff (x : Nat) : acceptance x = true ↔ 1 ≤ x ∧ x ≤ 15 := by
  have h := Nat.and_pow_two_sub_one_eq_mod x 4
  norm_num at h
  simp only [acceptance, Bool.and_eq_true, bne_iff_ne, ne_eq, beq_iff_eq, h]
  omega

/-- C16: the test `x && ((x & 0xf) == x)` of `set_parameters` holds exactly for
`1 ≤ x ≤ 15`, for every value `x` (in particular every 32-bit one, such as the
`0xffffffff` stored for the input `-1`); the loop therefore ends with the first stored
value lying in `[1, 15]`, a stored 0 is skipped (the prompt is repeated), and while no
such value has been stored the loop does not end. -/
theorem acceptance_exactly_1_to_15 (x : Nat) (later : List Nat) :
    (acceptance x = true ↔ 1 ≤ x ∧ x ≤ 15) ∧
    acceptance 0 = false ∧ acceptance 16 = false ∧ acceptance 0xffffffff = false ∧
    set_parameters_loop (0 :: later) = set_parameters_loop later ∧
    (∀ inputs level, set_parameters_loop inputs = some level → 1 ≤ level ∧ level ≤ 15) ∧
    (∀ refused, (∀ y ∈ refused, ¬ (1 ≤ y ∧ y ≤ 15)) → 1 ≤ x → x ≤ 15 →
      set_parameters_loop (refused ++ x :: later) = some x) ∧
    (∀ refused, (∀ y ∈ refused, ¬ (1 ≤ y ∧ y ≤ 15)) → set_parameters_loop refused = none) := by
  refine ⟨acceptance_iff x, by decide, by decide, by decide, by simp [set_parameters_loop,
    show acceptance 0 = false by decide], ?_, ?_, ?_⟩
  · intro inputs
    induction inputs with
    | nil => intro level h; simp [set_parameters_loop] at h
    | cons y ys ih =>
      intro level h
      rw [set_parameters_loop] at h
      by_cases hy : acceptance y = true
      · rw [if_pos hy] at h
        cases h
        exact (acceptance_iff _).1 hy
      · rw [if_neg hy] at h
        exact ih level h
  · intro refused
    induction refused with
    | nil =>
      intro _ h1 h15
      simp [set_parameters_loop, (acceptance_iff x).2 ⟨h1, h15⟩]
    | cons y ys ih =>
      intro hall h1 h15
      have hy : ¬ acceptance y = true := fun h =>
        hall y (List.mem_cons_self _ _) ((acceptance_iff y).1 h)
      rw [List.cons_append, set_parameters_loop, if_neg hy]
      exact ih (fun z hz => hall z (List.mem_cons_of_mem _ hz)) h1 h15
  · intro refused
    induction refused with
    | nil => intro _; rfl
    | cons y ys ih =>
      intro hall
      have hy : ¬ acceptance y = true := fun h =>
        hall y (List.mem_cons_self _ _) ((acceptance_iff y).1 h)
      rw [set_parameters_loop, if_neg hy]
      exact ih (fun z hz => hall z (List.mem_cons_of_mem _ hz))

/-! ## Injectivity of the step -/

theorem split_high_bit (a b c d : Nat) (ha : a < 2 ^ 31) (hb : b < 2 ^ 31)
    (h : a + 2 ^ 31 * c = b + 2 ^ 31 * d) : a = b ∧ c = d := by
  omega

theorem lfsr_injective (s t : Nat) (hs : s < 2 ^ 32) (ht : t < 2 ^ 32)
    (h : lfsr s = lfsr t) : s = t := by
  rw [lfsr_arith s hs, lfsr_arith t ht] at h
  obtain ⟨h2, hf⟩ := split_high_bit _ _ _ _ (by omega) (by omega) h
  have a16 : s / 2 ^ 16 = t / 2 ^ 16 := by omega
  have a25 : s / 2 ^ 25 = t / 2 ^ 25 := by omega
  have a30 : s / 2 ^ 30 = t / 2 ^ 30 := by omega
  rw [a16, a25, a30] at hf
  omega

/-- The state from which one step leads to `y`. -/
theorem lfsr_surjective (y : Nat) (hy : y < 2 ^ 32) : ∃ s, s < 2 ^ 32 ∧ lfsr s = y := by
  obtain ⟨h, hh⟩ : ∃ h, h = y % 2 ^ 31 := ⟨_, rfl⟩
  obtain ⟨c, hc⟩ : ∃ c, c = y / 2 ^ 31 := ⟨_, rfl⟩
  obtain ⟨b, hb⟩ : ∃ b, b = (c + h / 2 ^ 15 + h / 2 ^ 24 + h / 2 ^ 29) % 2 := ⟨_, rfl⟩
  have hlt : h < 2 ^ 31 := by omega
  have hc1 : c ≤ 1 := by omega
  have hb1 : b ≤ 1 := by omega
  have hy2 : y = h + 2 ^ 31 * c := by omega
  refine ⟨2 * h + b, by omega, ?_⟩
  rw [lfsr_arith _ (by omega), hy2]
  have e2 : (2 * h + b) / 2 = h := by omega
  have e16 : (2 * h + b) / 2 ^ 16 = h / 2 ^ 15 := by omega
  have e25 : (2 * h + b) / 2 ^ 25 = h / 2 ^ 24 := by omega
  have e30 : (2 * h + b) / 2 ^ 30 = h / 2 ^ 29 := by omega
  rw [e2, e16, e25, e30]
  have ef : (2 * h + b + h / 2 ^ 15 + h / 2 ^ 24 + h / 2 ^ 29) % 2 = c := by
    clear e2 e16 e25 e30 hy2 hh hc
    omega
  rw [ef]

theorem iterate_lfsr_injective (n : Nat) :
    ∀ s t : Nat, s < 2 ^ 32 → t < 2 ^ 32 → lfsr^[n] s = lfsr^[n] t → s = t := by
  induction n with
  | zero => intro s t _ _ h; simpa using h
  | succ n ih =>
    intro s t hs ht h
    rw [Function.iterate_succ_apply, Function.iterate_succ_apply] at h
    exact lfsr_injective s t hs ht (ih _ _ (lfsr_lt s hs) (lfsr_lt t ht) h)

/-- C17: on 32-bit states the step `lfsr` is injective, and hence a bijection of the
32-bit states: every 32-bit state has exactly one 32-bit predecessor, and two different
states stay different after any number of steps. -/
theorem lfsr_bijective_on_states (s t : Nat) (hs : s < 2 ^ 32) (ht : t < 2 ^ 32) :
    (lfsr s = lfsr t → s = t) ∧
    lfsr s < 2 ^ 32 ∧
    (∃ p, (p < 2 ^ 32 ∧ lfsr p = s) ∧ ∀ q, q < 2 ^ 32 ∧ lfsr q = s → q = p) ∧
    (∀ n, lfsr^[n] s = lfsr^[n] t → s = t) := by
  refine ⟨lfsr_injective s t hs ht, lfsr_lt s hs, ?_, fun n => iterate_lfsr_injective n s t hs ht⟩
  obtain ⟨p, hp, hps⟩ := lfsr_surjective s hs
  refine ⟨p, ⟨hp, hps⟩, ?_⟩
  rintro q ⟨hq, hqs⟩
  exact lfsr_injective q p hq hp (hqs.trans hps.symm)

/-- C17, instance: the reference seed and its successor. -/
theorem lfsr_bijective_on_states_witness :
    (0xb16b00b5 : Nat) < 2 ^ 32 ∧ (0x58b5805a : Nat) < 2 ^ 32 ∧
    ((lfsr 0xb16b00b5 = lfsr 0x58b5805a → (0xb16b00b5 : Nat) = 0x58b5805a) ∧
    lfsr 0xb16b00b5 < 2 ^ 32 ∧
    (∃ p, (p < 2 ^ 32 ∧ lfsr p = 0xb16b00b5) ∧
      ∀ q, q < 2 ^ 32 ∧ lfsr q = 0xb16b00b5 → q = p) ∧
    (∀ n, lfsr^[n] 0xb16b00b5 = lfsr^[n] 0x58b5805a → (0xb16b00b5 : Nat) = 0x58b5805a)) :=
  ⟨by decide, by decide, lfsr_bijective_on_states 0xb16b00b5 0x58b5805a (by decide) (by decide)⟩

/-! ## The low bits of the state -/

theorem testBit_lfsr (w : Nat) (b : Nat) (hb : b < 31) :
    (lfsr w).testBit b = w.testBit (b + 1) := by
  have hnt : ((((w ^^^ (w >>> 16) ^^^ (w >>> 25) ^^^ (w >>> 30)) &&& 1) <<< 31) % 2 ^ 32).testBit b
      = false := by
    rw [Nat.testBit_mod_two_pow, Nat.testBit_shiftLeft]
    have : ¬ b ≥ 31 := by omega
    simp [this]
  show ((w >>> 1) ||| _).testBit b = _
  rw [Nat.testBit_or, hnt, Nat.testBit_shiftRight, Bool.or_false, Nat.add_comm]

theorem testBit_iterate_lfsr (S : Nat) :
    ∀ k b : Nat, b + k ≤ 31 → (lfsr^[k] S).testBit b = S.testBit (b + k) := by
  intro k
  induction k with
  | zero => intro b _; rfl
  | succ k ih =>
    intro b hb
    rw [Function.iterate_succ_apply', testBit_lfsr _ b (by omega),
      ih (b + 1) (by omega)]
    congr 1
    omega

theorem testBit_low_mask (x m b : Nat) :
    (x &&& (2 ^ m - 1)).testBit b = (decide (b < m) && x.testBit b) := by
  rw [Nat.testBit_and, Nat.testBit_two_pow_sub_one, Bool.and_comm]

theorem sample_eq_shift (S : Nat) (k : Nat) (hk : k ≤ 28) :
    (lfsr^[k] S) &&& 0xf = (S >>> k) &&& 0xf := by
  apply Nat.eq_of_testBit_eq
  intro b
  have h : (lfsr^[k] S &&& 0xf).testBit b = (decide (b < 4) && (lfsr^[k] S).testBit b) :=
    testBit_low_mask (lfsr^[k] S) 4 b
  have h2 : ((S >>> k) &&& 0xf).testBit b = (decide (b < 4) && (S >>> k).testBit b) :=
    testBit_low_mask (S >>> k) 4 b
  rw [h, h2, Nat.testBit_shiftRight]
  by_cases hb : b < 4
  · rw [testBit_iterate_lfsr S k b (by omega), Nat.add_comm]
  · simp [hb]

/-- C18: for every state `s` (in particular every 32-bit one),
`lfsr s & 0x7 = (s >> 1) & 0x7`; for every seed `S` and every `k ≤ 28`, the sample of step
`k` is `(S >> k) & 0xF`; hence for `V ≤ 8` the run returns with at most 28 records, record
`k` carrying bit 1 exactly when `(S >> k) & 0xF` is below the level: the edge bits are
given by the bits of the seed and the level alone. -/
theorem early_samples_are_seed_bits (S : Nat) :
    (lfsr S) &&& 0x7 = (S >>> 1) &&& 0x7 ∧
    (∀ k, k ≤ 28 → (lfsr^[k] S) &&& 0xf = (S >>> k) &&& 0xf) ∧
    (∀ V P fuel, V ≤ 8 → V < fuel →
      ∃ rs, emitted S fuel V P = some rs ∧ rs.length ≤ 28 ∧
        ∀ k (hk : k < rs.length),
          (rs[k]).2.2 = if ((S >>> k) &&& 0xf) < P then 1 else 0) := by
  refine ⟨?_, fun k hk => sample_eq_shift S k hk, ?_⟩
  · apply Nat.eq_of_testBit_eq
    intro b
    have h : (lfsr S &&& 0x7).testBit b = (decide (b < 3) && (lfsr S).testBit b) :=
      testBit_low_mask (lfsr S) 3 b
    have h2 : ((S >>> 1) &&& 0x7).testBit b = (decide (b < 3) && (S >>> 1).testBit b) :=
      testBit_low_mask (S >>> 1) 3 b
    rw [h, h2, Nat.testBit_shiftRight]
    by_cases hb : b < 3
    · rw [testBit_lfsr S b (by omega), Nat.add_comm]
    · simp [hb]
  · intro V P fuel hV hf
    have hlen : (pairsLex V).length ≤ 28 := by
      rw [length_pairsLex]
      interval_cases V <;> decide
    refine ⟨_, emitted_closed S fuel V P (by omega) hf, by rwa [length_decorate], ?_⟩
    intro k hk
    have h := getElem?_decorate P (pairsLex V) S k
    rw [List.getElem?_eq_getElem hk] at h
    rw [length_decorate] at hk
    rw [List.getElem?_eq_getElem hk, Option.map_some', Option.some.injEq] at h
    rw [h]
    show edgeDecision (lfsr^[k] S) P = _
    unfold edgeDecision
    rw [sample_eq_shift S k (by omega)]

/-! ## Levels of 16 and above -/

theorem decorate_all_ones (P : Nat) (hP : 16 ≤ P) (ps : List (Nat × Nat)) :
    ∀ x, decorate P ps x = ps.map (fun p => (p.1, p.2, 1)) := by
  induction ps with
  | nil => intro x; rfl
  | cons p ps ih =>
    intro x
    rw [decorate_cons, ih (lfsr x), List.map_cons]
    have := and_0xf_lt x
    have h1 : edgeDecision x P = 1 := by
      unfold edgeDecision
      rw [if_pos (by omega)]
    rw [h1]

/-- C19: for every level of 16 or more, every 32-bit vertex count and every seed, the run
returns with every pair of `pairsLex V` written with edge bit 1 (the complete graph): all
`V * (V - 1) / 2` records count as edges, the level being compared as given, with no upper
bound applied. -/
theorem level_16_or_more_complete (V P S fuel : Nat) (hP : 16 ≤ P) (hV : V < 2 ^ 32)
    (hf : V < fuel) :
    ∃ rs, emitted S fuel V P = some rs ∧
      rs = (pairsLex V).map (fun p => (p.1, p.2, 1)) ∧
      (∀ r ∈ rs, r.2.2 = 1) ∧
      rs.length = V * (V - 1) / 2 ∧
      edgeCount rs = V * (V - 1) / 2 := by
  have hall : ∀ r ∈ decorate P (pairsLex V) S, r.2.2 = 1 := decorate_level_high P hP _ _
  refine ⟨_, emitted_closed S fuel V P hV hf, decorate_all_ones P hP _ S, hall, ?_, ?_⟩
  · rw [length_decorate, length_pairsLex]
  · unfold edgeCount
    rw [List.filter_eq_self.2 (fun r hr => by simpa using hall r hr), length_decorate,
      length_pairsLex]

/-- C19, instance: eleven vertices at level 16 from the reference seed, budget 12. -/
theorem level_16_or_more_complete_witness :
    (16 : Nat) ≤ 16 ∧ (11 : Nat) < 2 ^ 32 ∧ (11 : Nat) < 12 ∧
    ∃ rs, emitted seed0 12 11 16 = some rs ∧
      rs = (pairsLex 11).map (fun p => (p.1, p.2, 1)) ∧
      (∀ r ∈ rs, r.2.2 = 1) ∧
      rs.length = 11 * (11 - 1) / 2 ∧
      edgeCount rs = 11 * (11 - 1) / 2 :=
  ⟨by decide, by decide, by decide,
    level_16_or_more_complete 11 16 seed0 12 (by decide) (by decide) (by decide)⟩

/-! ## The file holds the lines of the records -/

theorem innerLoopFile_eq (V P : Nat) :
    ∀ (fuel : Nat) (s : GenState),
      innerLoopFile V P fuel (toFileState s) = (innerLoop V P fuel s).map toFileState := by
  intro fuel
  induction fuel with
  | zero => intro s; rfl
  | succ f ih =>
    intro s
    rw [innerLoopFile, innerLoop]
    by_cases hj : s.j < V
    · have hj2 : (toFileState s).j < V := hj
      simp only [hj, hj2, if_true]
      rw [← ih]
      congr 1
      simp [toFileState]
    · have hj2 : ¬ (toFileState s).j < V := hj
      simp only [hj, hj2, if_false, Option.map_some']

theorem outerLoopFile_eq (V P innerFuel : Nat) :
    ∀ (fuel : Nat) (s : GenState),
      outerLoopFile V P innerFuel fuel (toFileState s)
        = (outerLoop V P innerFuel fuel s).map toFileState := by
  intro fuel
  induction fuel with
  | zero => intro s; rfl
  | succ f ih =>
    intro s
    rw [outerLoopFile, outerLoop]
    by_cases hi : s.i < V
    · have hi2 : (toFileState s).i < V := hi
      simp only [hi, hi2, if_true]
      rw [innerLoopFile_eq]
      cases innerLoop V P innerFuel s with
      | none => rfl
      | some t =>
        exact ih { i := (t.i + 1) % 2 ^ 32, j := ((t.i + 1) % 2 ^ 32 + 1) % 2 ^ 32,
                   my32 := t.my32, out := t.out }
    · have hi2 : ¬ (toFileState s).i < V := hi
      simp only [hi, hi2, if_false, Option.map_some']

/-- The file after a run holds the lines of the records of the run, in order. -/
theorem adjacency_list_txt_eq (fuel V P : Nat) :
    adjacency_list_txt fuel V P =
      (emitted seed0 fuel V P).map
        (fun rs => rs.flatMap fun r => fprintf_line r.1 r.2.1 r.2.2) := by
  have h := outerLoopFile_eq V P fuel fuel { i := 0, j := 1, my32 := seed0, out := [] }
  unfold adjacency_list_txt emitted generateFrom
  have h0 : toFileState { i := 0, j := 1, my32 := seed0, out := [] }
      = { i := 0, j := 1, my32 := seed0, file := [] } := rfl
  rw [h0] at h
  rw [h, Option.map_map, Option.map_map]
  rfl

theorem fprintf_line_small (i j b : Nat) (hi : i < 2 ^ 31) (hj : j < 2 ^ 31) (hb : b < 2 ^ 31) :
    fprintf_line i j b = referenceLine i j b := by
  unfold fprintf_line referenceLine fprintf_d
  rw [if_pos hi, if_pos hj, if_pos hb]

/-- The records of the first row: record `k` is `(0, k + 1, bit)` while `k + 1 < V`. -/
theorem getElem?_pairsLex_first_row (V k : Nat) (hk : k + 1 < V) :
    (pairsLex V)[k]? = some (0, k + 1) := by
  obtain ⟨m, rfl⟩ : ∃ m, V = m + 1 := ⟨V - 1, by omega⟩
  rw [pairsLex_eq_rows, pairsRows_succ,
    List.getElem?_append_left (by simp; omega), List.getElem?_map,
    List.getElem?_range' _ _ (by omega)]
  simp [Nat.add_comm]

theorem first_row_record (V P S fuel k : Nat) (hV : V < 2 ^ 32) (hf : V < fuel)
    (hk : k + 1 < V) :
    ∃ rs, emitted S fuel V P = some rs ∧
      rs[k]? = some (0, k + 1, edgeDecision (lfsr^[k] S) P) := by
  refine ⟨_, emitted_closed S fuel V P hV hf, ?_⟩
  rw [getElem?_decorate, getElem?_pairsLex_first_row V k hk]
  rfl

theorem flatMap_congr_mem {α β : Type} (l : List α) (f g : α → List β)
    (h : ∀ a ∈ l, f a = g a) : l.flatMap f = l.flatMap g := by
  induction l with
  | nil => rfl
  | cons a l ih =>
    rw [List.flatMap_cons, List.flatMap_cons, h a (List.mem_cons_self _ _),
      ih (fun b hb => h b (List.mem_cons_of_mem _ hb))]

/-- For at most `2 ^ 31` vertices the file is the reference text of the records. -/
theorem adjacency_list_txt_small (fuel V P : Nat) (hV : V ≤ 2 ^ 31) (hf : V < fuel) :
    ∃ rs, emitted seed0 fuel V P = some rs ∧
      adjacency_list_txt fuel V P = some (referenceText rs) := by
  have hc := emitted_closed seed0 fuel V P (by omega) hf
  refine ⟨_, hc, ?_⟩
  rw [adjacency_list_txt_eq, hc, Option.map_some']
  congr 1
  apply flatMap_congr_mem
  intro r hr
  obtain ⟨hp, hb⟩ := mem_decorate P _ seed0 r hr
  have hij := (mem_pairsLex V r.1 r.2.1).1 hp
  exact fprintf_line_small _ _ _ (by omega) (by omega) (by omega)

theorem fprintf_d_two_pow_31 :
    fprintf_d 2147483648 = ['-', '2', '1', '4', '7', '4', '8', '3', '6', '4', '8'] := by
  decide

/-! ## Decimal digits read back -/

theorem digitValue_digitChar (k : Nat) (hk : k < 10) :
    digitValue (Nat.digitChar k) = some k := by
  interval_cases k <;> decide

theorem digit_ne_separator (c : Char) (d : Nat) (h : digitValue c = some d) :
    c ≠ ',' ∧ c ≠ '\n' ∧ c ≠ '-' := by
  have h1 : digitValue ',' = none := by decide
  have h2 : digitValue '\n' = none := by decide
  have h3 : digitValue '-' = none := by decide
  refine ⟨?_, ?_, ?_⟩
  · rintro rfl
    rw [h1] at h
    cases h
  · rintro rfl
    rw [h2] at h
    cases h
  · rintro rfl
    rw [h3] at h
    cases h

/-- The digits that `Nat.toDigitsCore` puts in front of `ds` are decimal digits, at
least one, and read back as the number. -/
theorem toDigitsCore_read :
    ∀ (fuel n : Nat) (ds : List Char), n < fuel →
      ∃ pre, Nat.toDigitsCore 10 fuel n ds = pre ++ ds ∧ pre ≠ [] ∧
        (∀ c ∈ pre, ∃ d, digitValue c = some d) ∧
        ∀ acc rest, readDigits acc (pre ++ rest) = readDigits (acc * 10 ^ pre.length + n) rest := by
  intro fuel
  induction fuel with
  | zero => intro n ds h; omega
  | succ f ih =>
    intro n ds hn
    have hd := digitValue_digitChar (n % 10) (Nat.mod_lt _ (by decide))
    by_cases h0 : n / 10 = 0
    · refine ⟨[Nat.digitChar (n % 10)], ?_, by simp, ?_, ?_⟩
      · simp [Nat.toDigitsCore, h0]
      · intro c hc
        rw [List.mem_singleton] at hc
        exact ⟨n % 10, by rw [hc]; exact hd⟩
      · intro acc rest
        have hn10 : n % 10 = n := by omega
        show readDigits acc (Nat.digitChar (n % 10) :: rest) = _
        rw [readDigits, hd]
        simp only [List.length_singleton, pow_one]
        rw [hn10, Nat.mul_comm]
    · obtain ⟨pre, hpre, _, hdig, hread⟩ :=
        ih (n / 10) (Nat.digitChar (n % 10) :: ds) (by omega)
      refine ⟨pre ++ [Nat.digitChar (n % 10)], ?_, by simp, ?_, ?_⟩
      · simp [Nat.toDigitsCore, h0, hpre]
      · intro c hc
        rcases List.mem_append.1 hc with h | h
        · exact hdig c h
        · rw [List.mem_singleton] at h
          exact ⟨n % 10, by rw [h]; exact hd⟩
      · intro acc rest
        rw [List.append_assoc, hread]
        show readDigits _ (Nat.digitChar (n % 10) :: rest) = _
        rw [readDigits, hd]
        simp only [List.length_append, List.length_singleton]
        congr 1
        rw [pow_succ]
        have := Nat.div_add_mod n 10
        nlinarith [this]

theorem toDigits_read (n : Nat) :
    Nat.toDigits 10 n ≠ [] ∧ (∀ c ∈ Nat.toDigits 10 n, ∃ d, digitValue c = some d) ∧
      readDigits 0 (Nat.toDigits 10 n) = some n := by
  obtain ⟨pre, hpre, hne, hdig, hread⟩ := toDigitsCore_read (n + 1) n [] (by omega)
  rw [List.append_nil] at hpre
  have h := hread 0 []
  rw [List.append_nil] at h
  unfold Nat.toDigits
  rw [hpre]
  refine ⟨hne, hdig, ?_⟩
  rw [h]
  simp [readDigits]

theorem readDecimal_toDigits (n : Nat) : readDecimal (Nat.toDigits 10 n) = some (n : Int) := by
  obtain ⟨hne, hdig, hread⟩ := toDigits_read n
  cases hl : Nat.toDigits 10 n with
  | nil => exact absurd hl hne
  | cons c cs =>
    rw [hl] at hdig hread
    obtain ⟨d, hd⟩ := hdig c (List.mem_cons_self _ _)
    have hc := (digit_ne_separator c d hd).2.2
    unfold readDecimal
    simp only [hc, if_false, hread]
    rfl

/-! ## Lines and fields split off -/

theorem splitOnNewline_line (line rest : List Char) (h : ∀ c ∈ line, c ≠ '\n') :
    splitOnNewline (line ++ '\n' :: rest) = line :: splitOnNewline rest := by
  induction line with
  | nil => simp [splitOnNewline]
  | cons c cs ih =>
    have hc : c ≠ '\n' := h c (List.mem_cons_self _ _)
    have ih2 := ih (fun x hx => h x (List.mem_cons_of_mem _ hx))
    rw [List.cons_append, splitOnNewline, if_neg hc, ih2]

theorem splitOnCommaSpace_last (field : List Char) (h : ∀ c ∈ field, c ≠ ',') :
    splitOnCommaSpace field = [field] := by
  induction field with
  | nil => rfl
  | cons c cs ih =>
    have hc : c ≠ ',' := h c (List.mem_cons_self _ _)
    have ih2 := ih (fun x hx => h x (List.mem_cons_of_mem _ hx))
    cases cs with
    | nil => rfl
    | cons d ds =>
      rw [splitOnCommaSpace, if_neg (fun hh => hc hh.1), ih2]

theorem splitOnCommaSpace_field (field rest : List Char) (h : ∀ c ∈ field, c ≠ ',') :
    splitOnCommaSpace (field ++ ',' :: ' ' :: rest) = field :: splitOnCommaSpace rest := by
  induction field with
  | nil => simp [splitOnCommaSpace]
  | cons c cs ih =>
    have hc : c ≠ ',' := h c (List.mem_cons_self _ _)
    have ih2 := ih (fun x hx => h x (List.mem_cons_of_mem _ hx))
    cases cs with
    | nil =>
      rw [List.nil_append] at ih2
      show splitOnCommaSpace (c :: ',' :: ' ' :: rest) = _
      rw [splitOnCommaSpace, if_neg (fun hh => hc hh.1), ih2]
    | cons d ds =>
      rw [List.cons_append] at ih2
      show splitOnCommaSpace (c :: d :: (ds ++ ',' :: ' ' :: rest)) = _
      rw [splitOnCommaSpace, if_neg (fun hh => hc hh.1), ih2]

theorem toDigits_no_separator (n : Nat) :
    ∀ c ∈ Nat.toDigits 10 n, c ≠ ',' ∧ c ≠ '\n' := by
  intro c hc
  obtain ⟨d, hd⟩ := (toDigits_read n).2.1 c hc
  exact ⟨(digit_ne_separator c d hd).1, (digit_ne_separator c d hd).2.1⟩

/-- A line of three fields without commas, read field by field. -/
theorem readLine_three (a b c : List Char) (x y z : Int)
    (ha : ∀ ch ∈ a, ch ≠ ',') (hb : ∀ ch ∈ b, ch ≠ ',') (hc : ∀ ch ∈ c, ch ≠ ',')
    (hx : readDecimal a = some x) (hy : readDecimal b = some y) (hz : readDecimal c = some z) :
    readLine (a ++ ',' :: ' ' :: (b ++ ',' :: ' ' :: c)) = some (x, y, z) := by
  unfold readLine
  rw [splitOnCommaSpace_field _ _ ha, splitOnCommaSpace_field _ _ hb,
    splitOnCommaSpace_last _ hc]
  simp only [hx, hy, hz]

/-- A text made of lines without inner newline, each followed by a newline, splits into
these lines. -/
theorem textLines_lines (ls : List (List Char)) (h : ∀ l ∈ ls, ∀ c ∈ l, c ≠ '\n') :
    textLines (ls.flatMap fun l => l ++ '\n' :: []) = ls := by
  have hsplit : splitOnNewline (ls.flatMap fun l => l ++ '\n' :: []) = ls ++ [[]] := by
    induction ls with
    | nil => rfl
    | cons l ls ih =>
      rw [List.flatMap_cons, List.append_assoc, List.singleton_append,
        splitOnNewline_line _ _ (h l (List.mem_cons_self _ _)),
        ih (fun m hm => h m (List.mem_cons_of_mem _ hm))]
      rfl
  unfold textLines
  rw [hsplit]
  have hlast : (ls ++ [[]]).getLast? = some [] := by simp
  simp only [hlast, if_true, List.dropLast_concat]

theorem flatMap_map_lines {α : Type} (rs : List α) (body : α → List Char) :
    (rs.map body).flatMap (fun l => l ++ '\n' :: []) = rs.flatMap fun r => body r ++ '\n' :: [] := by
  induction rs with
  | nil => rfl
  | cons r rs ih => rw [List.map_cons, List.flatMap_cons, List.flatMap_cons, ih]

/-- Reading a text whose lines are the three fields of each record. -/
theorem readText_of_fields (rs : List EdgeRecord) (field : Nat → List Char) (value : Nat → Int)
    (hsep : ∀ x, ∀ c ∈ field x, c ≠ ',' ∧ c ≠ '\n')
    (hval : ∀ r ∈ rs, readDecimal (field r.1) = some (value r.1) ∧
      readDecimal (field r.2.1) = some (value r.2.1) ∧
      readDecimal (field r.2.2) = some (value r.2.2)) :
    readText (rs.flatMap fun r =>
        (field r.1 ++ ',' :: ' ' :: (field r.2.1 ++ ',' :: ' ' :: field r.2.2)) ++ '\n' :: [])
      = some (rs.map fun r => (value r.1, value r.2.1, value r.2.2)) := by
  unfold readText
  rw [← flatMap_map_lines, textLines_lines]
  · induction rs with
    | nil => rfl
    | cons r rs ih =>
      obtain ⟨h1, h2, h3⟩ := hval r (List.mem_cons_self _ _)
      rw [List.map_cons, readLines,
        readLine_three _ _ _ _ _ _ (fun c hc => (hsep _ c hc).1) (fun c hc => (hsep _ c hc).1)
          (fun c hc => (hsep _ c hc).1) h1 h2 h3,
        ih (fun s hs => hval s (List.mem_cons_of_mem _ hs))]
      rfl
  · intro l hl c hc
    obtain ⟨r, _, rfl⟩ := List.mem_map.1 hl
    simp only [List.mem_append, List.mem_cons] at hc
    rcases hc with h | rfl | rfl | h | rfl | rfl | h
    · exact (hsep _ c h).2
    · decide
    · decide
    · exact (hsep _ c h).2
    · decide
    · decide
    · exact (hsep _ c h).2

/-- The reference text of any sequence of records reads back as the records. -/
theorem readText_referenceText (rs : List EdgeRecord) :
    readText (referenceText rs) = some (rs.map recordAsInts) := by
  have h := readText_of_fields rs (Nat.toDigits 10) (fun n => (n : Int)) toDigits_no_separator
    (fun r _ => ⟨readDecimal_toDigits _, readDecimal_toDigits _, readDecimal_toDigits _⟩)
  have e : referenceText rs = rs.flatMap fun r =>
      (Nat.toDigits 10 r.1 ++ ',' :: ' ' :: (Nat.toDigits 10 r.2.1 ++ ',' :: ' ' ::
        Nat.toDigits 10 r.2.2)) ++ '\n' :: [] := by
    unfold referenceText
    apply flatMap_congr_mem
    intro r _
    simp [referenceLine, List.append_assoc]
  rw [e, h]
  rfl

theorem fprintf_d_no_separator (x : Nat) : ∀ c ∈ fprintf_d x, c ≠ ',' ∧ c ≠ '\n' := by
  intro c hc
  unfold fprintf_d at hc
  split at hc
  · exact toDigits_no_separator x c hc
  · rcases List.mem_cons.1 hc with rfl | h
    · exact ⟨by decide, by decide⟩
    · exact toDigits_no_separator _ c h

theorem readDecimal_fprintf_d (x : Nat) (hx : x < 2 ^ 32) :
    readDecimal (fprintf_d x) = some (asInt32 x) := by
  unfold fprintf_d asInt32
  by_cases h : x < 2 ^ 31
  · rw [if_pos h, if_pos h]
    exact readDecimal_toDigits x
  · rw [if_neg h, if_neg h]
    obtain ⟨hne, _, hread⟩ := toDigits_read (2 ^ 32 - x)
    cases hl : Nat.toDigits 10 (2 ^ 32 - x) with
    | nil => exact absurd hl hne
    | cons c cs =>
      rw [hl] at hread
      unfold readDecimal
      simp only [if_true, hread, Option.some.injEq]
      have : Int.ofNat (2 ^ 32 - x) = (2 : Int) ^ 32 - Int.ofNat x := by
        simp only [Int.ofNat_eq_coe]
        omega
      rw [this]
      ring

/-- The text written for any sequence of 32-bit records reads back as the records with
each value read as an `int`. -/
theorem readText_written (rs : List EdgeRecord)
    (h32 : ∀ r ∈ rs, r.1 < 2 ^ 32 ∧ r.2.1 < 2 ^ 32 ∧ r.2.2 < 2 ^ 32) :
    readText (rs.flatMap fun r => fprintf_line r.1 r.2.1 r.2.2)
      = some (rs.map recordAsInt32s) := by
  have h := readText_of_fields rs fprintf_d asInt32 fprintf_d_no_separator
    (fun r hr => ⟨readDecimal_fprintf_d _ (h32 r hr).1, readDecimal_fprintf_d _ (h32 r hr).2.1,
      readDecimal_fprintf_d _ (h32 r hr).2.2⟩)
  have e : (rs.flatMap fun r => fprintf_line r.1 r.2.1 r.2.2) = rs.flatMap fun r =>
      (fprintf_d r.1 ++ ',' :: ' ' :: (fprintf_d r.2.1 ++ ',' :: ' ' ::
        fprintf_d r.2.2)) ++ '\n' :: [] := by
    apply flatMap_congr_mem
    intro r _
    simp [fprintf_line, List.append_assoc]
  rw [e, h]
  rfl

theorem asInt32_small (x : Nat) (hx : x < 2 ^ 31) : asInt32 x = (x : Int) := by
  unfold asInt32
  rw [if_pos hx]
  rfl

theorem recordAsInts_injective (rs1 rs2 : List EdgeRecord)
    (h : rs1.map recordAsInts = rs2.map recordAsInts) : rs1 = rs2 := by
  have hinj : Function.Injective recordAsInts := by
    intro a b hab
    simp only [recordAsInts, Prod.mk.injEq, Nat.cast_inj] at hab
    exact Prod.ext hab.1 (Prod.ext hab.2.1 hab.2.2)
  exact List.map_injective_iff.2 hinj h

/-! ## The run for 2147483649 vertices -/

theorem decorate_fields_lt (V P S : Nat) (hV : V < 2 ^ 32) :
    ∀ r ∈ decorate P (pairsLex V) S, r.1 < 2 ^ 32 ∧ r.2.1 < 2 ^ 32 ∧ r.2.2 < 2 ^ 32 := by
  intro r hr
  obtain ⟨hp, hb⟩ := mem_decorate P _ S r hr
  have hij := (mem_pairsLex V r.1 r.2.1).1 hp
  exact ⟨by omega, by omega, by omega⟩

theorem asInt32_two_pow_31 : asInt32 2147483648 = -2147483648 := by
  unfold asInt32
  norm_num

/-- The run for `2 ^ 31 + 1` vertices: its record number `2 ^ 31 - 1` is
`(0, 2 ^ 31, b)`; the file holds the lines of the records and reads back as the records
with each value taken as an `int`, which are not the records. -/
theorem run_2147483649 (P extra : Nat) :
    ∃ (rs : List EdgeRecord) (b : Nat), b ≤ 1 ∧
      emitted seed0 (extra + 2147483650) 2147483649 P = some rs ∧
      adjacency_list_txt (extra + 2147483650) 2147483649 P
        = some (rs.flatMap fun r => fprintf_line r.1 r.2.1 r.2.2) ∧
      rs[2147483647]? = some (0, 2147483648, b) ∧
      readText (rs.flatMap fun r => fprintf_line r.1 r.2.1 r.2.2)
        = some (rs.map recordAsInt32s) ∧
      (rs.map recordAsInt32s)[2147483647]? = some (0, -2147483648, (b : Int)) ∧
      rs.map recordAsInt32s ≠ rs.map recordAsInts := by
  have hc := emitted_closed seed0 (extra + 2147483650) 2147483649 P (by norm_num) (by omega)
  have hk : (decorate P (pairsLex 2147483649) seed0)[2147483647]?
      = some (0, 2147483648, edgeDecision (lfsr^[2147483647] seed0) P) := by
    rw [getElem?_decorate, getElem?_pairsLex_first_row 2147483649 2147483647 (by norm_num)]
    rfl
  have hb : edgeDecision (lfsr^[2147483647] seed0) P ≤ 1 := by
    rcases edgeDecision_le_one (lfsr^[2147483647] seed0) P with h | h <;> omega
  have hback : (List.map recordAsInt32s (decorate P (pairsLex 2147483649) seed0))[2147483647]?
      = some (0, -2147483648, (edgeDecision (lfsr^[2147483647] seed0) P : Int)) := by
    rw [List.getElem?_map, hk, Option.map_some']
    simp only [recordAsInt32s, asInt32_two_pow_31, asInt32_small _ (by omega : edgeDecision
      (lfsr^[2147483647] seed0) P < 2 ^ 31), asInt32_small 0 (by norm_num)]
    rfl
  refine ⟨_, _, hb, hc, ?_, hk, ?_, hback, ?_⟩
  · rw [adjacency_list_txt_eq, hc, Option.map_some']
  · exact readText_written _ (decorate_fields_lt 2147483649 P seed0 (by norm_num))
  · intro heq
    have h2 : (List.map recordAsInts (decorate P (pairsLex 2147483649) seed0))[2147483647]?
        = some (0, 2147483648, (edgeDecision (lfsr^[2147483647] seed0) P : Int)) := by
      rw [List.getElem?_map, hk, Option.map_some']
      simp only [recordAsInts, Nat.cast_zero, Nat.cast_ofNat]
    rw [heq, h2] at hback
    have h3 := (Prod.mk.inj (Prod.mk.inj (Option.some.inj hback)).2).1
    omega

/-- C12, the code at `num_vertices = 2147483649`: the file always holds one line per
record, in order, and nothing else, and a line whose three values are below `2 ^ 31` is
the line of the reference format, so that for at most `2 ^ 31` vertices the file is the
reference text of the records; but record number `2147483647` of the run for `2147483649`
vertices is `(0, 2147483648, b)`, the line written for it is `0, -2147483648, b`, not the
line of the reference format, and the file is not the reference text of the records. -/
theorem txt_line_of_vertex_2147483648 :
    (∀ fuel V P, adjacency_list_txt fuel V P =
      (emitted seed0 fuel V P).map
        (fun rs => rs.flatMap fun r => fprintf_line r.1 r.2.1 r.2.2)) ∧
    (∀ i j b, i < 2 ^ 31 → j < 2 ^ 31 → b < 2 ^ 31 →
      fprintf_line i j b = referenceLine i j b) ∧
    (∀ fuel V P, V ≤ 2 ^ 31 → V < fuel →
      ∃ rs, emitted seed0 fuel V P = some rs ∧
        adjacency_list_txt fuel V P = some (referenceText rs)) ∧
    (∀ P extra, ∃ (rs : List EdgeRecord) (txt : List Char) (b : Nat), b ≤ 1 ∧
      emitted seed0 (extra + 2147483650) 2147483649 P = some rs ∧
      adjacency_list_txt (extra + 2147483650) 2147483649 P = some txt ∧
      txt = (rs.flatMap fun r => fprintf_line r.1 r.2.1 r.2.2) ∧
      rs[2147483647]? = some (0, 2147483648, b) ∧
      txt ≠ referenceText rs) ∧
    (∀ b, fprintf_line 0 2147483648 b =
      ['0', ',', ' ', '-', '2', '1', '4', '7', '4', '8', '3', '6', '4', '8', ',', ' ']
        ++ fprintf_d b ++ ['\n']) ∧
    (∀ b, fprintf_line 0 2147483648 b ≠ referenceLine 0 2147483648 b) := by
  have hline : ∀ b, fprintf_line 0 2147483648 b =
      ['0', ',', ' ', '-', '2', '1', '4', '7', '4', '8', '3', '6', '4', '8', ',', ' ']
        ++ fprintf_d b ++ ['\n'] := by
    intro b
    have h0 : fprintf_d 0 = ['0'] := by decide
    unfold fprintf_line
    rw [h0, fprintf_d_two_pow_31]
    rfl
  refine ⟨adjacency_list_txt_eq, fprintf_line_small, adjacency_list_txt_small, ?_, hline, ?_⟩
  · intro P extra
    obtain ⟨rs, b, hb, hrs, htxt, hk, hread, _, hne⟩ := run_2147483649 P extra
    refine ⟨rs, _, b, hb, hrs, htxt, rfl, hk, ?_⟩
    intro heq
    rw [heq, readText_referenceText] at hread
    exact hne (Option.some.inj hread).symm
  · intro b h
    rw [hline b] at h
    have href : referenceLine 0 2147483648 b =
        ['0', ',', ' ', '2', '1', '4', '7', '4', '8', '3', '6', '4', '8', ',', ' ']
          ++ Nat.toDigits 10 b ++ ['\n'] := by
      have h0 : Nat.toDigits 10 0 = ['0'] := by decide
      have h1 : Nat.toDigits 10 2147483648
          = ['2', '1', '4', '7', '4', '8', '3', '6', '4', '8'] := by decide
      unfold referenceLine
      rw [h0, h1]
      rfl
    rw [href] at h
    simp only [List.cons_append, List.cons.injEq, true_and] at h
    exact absurd h.1 (by decide)

/-! ## The round trip of the reference format -/

theorem asInt32_injective (x y : Nat) (hx : x < 2 ^ 32) (hy : y < 2 ^ 32)
    (h : asInt32 x = asInt32 y) : x = y := by
  unfold asInt32 at h
  simp only [Int.ofNat_eq_coe] at h
  split at h <;> split at h <;> omega

theorem map_recordAsInt32s_injective :
    ∀ rs1 rs2 : List EdgeRecord,
      (∀ r ∈ rs1, r.1 < 2 ^ 32 ∧ r.2.1 < 2 ^ 32 ∧ r.2.2 < 2 ^ 32) →
      (∀ r ∈ rs2, r.1 < 2 ^ 32 ∧ r.2.1 < 2 ^ 32 ∧ r.2.2 < 2 ^ 32) →
      rs1.map recordAsInt32s = rs2.map recordAsInt32s → rs1 = rs2 := by
  intro rs1
  induction rs1 with
  | nil =>
    intro rs2 _ _ h
    cases rs2 with
    | nil => rfl
    | cons r rs => simp at h
  | cons r rs ih =>
    intro rs2 h1 h2 h
    cases rs2 with
    | nil => simp at h
    | cons r2 rs2 =>
      rw [List.map_cons, List.map_cons, List.cons.injEq] at h
      obtain ⟨hr, hrest⟩ := h
      have b1 := h1 r (List.mem_cons_self _ _)
      have b2 := h2 r2 (List.mem_cons_self _ _)
      simp only [recordAsInt32s, Prod.mk.injEq] at hr
      have e1 := asInt32_injective _ _ b1.1 b2.1 hr.1
      have e2 := asInt32_injective _ _ b1.2.1 b2.2.1 hr.2.1
      have e3 := asInt32_injective _ _ b1.2.2 b2.2.2 hr.2.2
      have hrr : r = r2 := Prod.ext e1 (Prod.ext e2 e3)
      rw [hrr, ih rs2 (fun x hx => h1 x (List.mem_cons_of_mem _ hx))
        (fun x hx => h2 x (List.mem_cons_of_mem _ hx)) hrest]

/-- C13: for every record sequence `rs`, and so for the sequence of records of every run,
the text that the reference format produces for it, split on `"\n"`, each line split on
`", "` and read as three decimal integers, gives back exactly the triples of `rs` in the
same order; the serialization is injective on record sequences. The text that the code
writes is injective on sequences of 32-bit records as well, and for at most `2 ^ 31`
vertices the file of a run reads back as the records of the run. -/
theorem format_round_trip (rs : List EdgeRecord) :
    readText (referenceText rs) = some (rs.map recordAsInts) ∧
    (∀ rs2, referenceText rs = referenceText rs2 → rs = rs2) ∧
    (∀ S fuel V P, V < 2 ^ 32 → V < fuel →
      ∃ gen, emitted S fuel V P = some gen ∧
        readText (referenceText gen) = some (gen.map recordAsInts)) ∧
    (∀ rs2 : List EdgeRecord,
      (∀ r ∈ rs, r.1 < 2 ^ 32 ∧ r.2.1 < 2 ^ 32 ∧ r.2.2 < 2 ^ 32) →
      (∀ r ∈ rs2, r.1 < 2 ^ 32 ∧ r.2.1 < 2 ^ 32 ∧ r.2.2 < 2 ^ 32) →
      (rs.flatMap fun r => fprintf_line r.1 r.2.1 r.2.2)
        = (rs2.flatMap fun r => fprintf_line r.1 r.2.1 r.2.2) → rs = rs2) ∧
    (∀ fuel V P, V ≤ 2 ^ 31 → V < fuel →
      ∃ gen txt, emitted seed0 fuel V P = some gen ∧
        adjacency_list_txt fuel V P = some txt ∧
        readText txt = some (gen.map recordAsInts)) ∧
    (adjacency_list_txt 4 3 8).map readText
      = some (some [(0, 1, 1), (0, 2, 0), (1, 2, 0)]) := by
  refine ⟨readText_referenceText rs, ?_, ?_, ?_, ?_, by decide⟩
  · intro rs2 h
    have h1 := readText_referenceText rs
    rw [h, readText_referenceText rs2] at h1
    exact recordAsInts_injective rs rs2 (Option.some.inj h1).symm
  · intro S fuel V P hV hf
    exact ⟨_, emitted_closed S fuel V P hV hf, readText_referenceText _⟩
  · intro rs2 h1 h2 h
    have e1 := readText_written rs h1
    rw [h, readText_written rs2 h2] at e1
    exact map_recordAsInt32s_injective rs rs2 h1 h2 (Option.some.inj e1).symm
  · intro fuel V P hV hf
    obtain ⟨gen, hgen, htxt⟩ := adjacency_list_txt_small fuel V P hV hf
    exact ⟨gen, _, hgen, htxt, readText_referenceText gen⟩

/-! ## Bit masks as polynomials over GF(2) -/

theorem encodes_zero : Encodes 0 0 := by
  intro i
  simp

theorem encodes_one : Encodes 1 1 := by
  intro i
  rw [Polynomial.coeff_one]
  cases i with
  | zero => simp
  | succ k =>
    have h : Nat.testBit 1 (k + 1) = false := by
      rw [Nat.testBit_succ]
      simp
    simp [h]

theorem encodes_xor (a b : Nat) (p q : Polynomial (ZMod 2)) (ha : Encodes a p)
    (hb : Encodes b q) : Encodes (a ^^^ b) (p + q) := by
  intro i
  rw [Polynomial.coeff_add, ha i, hb i, Nat.testBit_xor]
  cases a.testBit i <;> cases b.testBit i <;> decide

theorem encodes_shiftLeft (a s : Nat) (p : Polynomial (ZMod 2)) (ha : Encodes a p) :
    Encodes (a <<< s) (Polynomial.X ^ s * p) := by
  intro i
  rw [Polynomial.coeff_X_pow_mul', Nat.testBit_shiftLeft]
  by_cases h : s ≤ i
  · simp [h, ha (i - s)]
  · simp [h]

theorem encodes_half (b : Nat) (q : Polynomial (ZMod 2)) (hb : Encodes b q) :
    Encodes (b / 2) q.divX := by
  intro i
  rw [Polynomial.coeff_divX, hb (i + 1), Nat.testBit_succ]

theorem encodes_unique (n : Nat) (p q : Polynomial (ZMod 2)) (hp : Encodes n p)
    (hq : Encodes n q) : p = q := by
  ext i
  rw [hp i, hq i]

theorem encodes_exists (n : Nat) : ∃ p : Polynomial (ZMod 2), Encodes n p := by
  refine ⟨∑ k in Finset.range (n + 1),
    (if n.testBit k then (Polynomial.X ^ k : Polynomial (ZMod 2)) else 0), ?_⟩
  intro i
  rw [Polynomial.finset_sum_coeff]
  by_cases hi : i < n + 1
  · rw [Finset.sum_eq_single i]
    · by_cases hb : n.testBit i <;> simp [hb]
    · intro k _ hki
      by_cases hb : n.testBit k
      · simp [hb, Polynomial.coeff_X_pow, hki.symm]
      · simp [hb]
    · intro h
      exact absurd (Finset.mem_range.2 hi) h
  · have hfalse : n.testBit i = false := by
      apply Nat.testBit_lt_two_pow
      exact lt_of_lt_of_le (by omega : n < i) (Nat.lt_two_pow i).le
    rw [hfalse]
    simp only [Bool.false_eq_true, if_false]
    apply Finset.sum_eq_zero
    intro k hk
    have hki : i ≠ k := by
      have := Finset.mem_range.1 hk
      omega
    by_cases hb : n.testBit k
    · simp [hb, Polynomial.coeff_X_pow, hki]
    · simp [hb]

theorem encodes_clmulAux :
    ∀ (fuel a b : Nat) (p q : Polynomial (ZMod 2)), b < 2 ^ fuel → Encodes a p → Encodes b q →
      Encodes (clmulAux fuel a b) (p * q) := by
  intro fuel
  induction fuel with
  | zero =>
    intro a b p q hb _ hq
    have hb0 : b = 0 := by simpa using hb
    subst hb0
    have hq0 : q = 0 := encodes_unique 0 q 0 hq encodes_zero
    subst hq0
    simpa [clmulAux] using encodes_zero
  | succ k ih =>
    intro a b p q hb ha hq
    have hrec := ih (a <<< 1) (b / 2) (Polynomial.X ^ 1 * p) q.divX
      (by rw [Nat.pow_succ] at hb; omega) (encodes_shiftLeft a 1 p ha) (encodes_half b q hq)
    have hsplit : p * q = (if b % 2 = 1 then p else 0) + Polynomial.X ^ 1 * p * q.divX := by
      have hq0 : q.coeff 0 = if b % 2 = 1 then 1 else 0 := by
        rw [hq 0, Nat.testBit_zero]
        by_cases h : b % 2 = 1 <;> simp [h]
      conv_lhs => rw [← Polynomial.divX_mul_X_add q, hq0]
      by_cases h : b % 2 = 1
      · simp only [h, if_true, Polynomial.C_1]
        ring
      · simp only [h, if_false, Polynomial.C_0]
        ring
    rw [clmulAux, hsplit]
    apply encodes_xor _ _ _ _ _ hrec
    by_cases h : b % 2 = 1
    · simpa [h] using ha
    · simpa [h] using encodes_zero

theorem encodes_clmul (a b : Nat) (p q : Polynomial (ZMod 2)) (hb : b < 2 ^ 64)
    (ha : Encodes a p) (hq : Encodes b q) : Encodes (clmul a b) (p * q) :=
  encodes_clmulAux 64 a b p q hb ha hq

theorem encodes_X : Encodes 2 Polynomial.X := by
  have h := encodes_shiftLeft 1 1 1 encodes_one
  simpa using h

theorem encodes_tapPolynomial :
    Encodes tapPolynomialMask
      (Polynomial.X ^ 32 + Polynomial.X ^ 16 + Polynomial.X ^ 7 + Polynomial.X ^ 2 + 1) := by
  have h32 := encodes_shiftLeft 1 32 1 encodes_one
  have h16 := encodes_shiftLeft 1 16 1 encodes_one
  have h7 := encodes_shiftLeft 1 7 1 encodes_one
  have h2 := encodes_shiftLeft 1 2 1 encodes_one
  have h := encodes_xor _ _ _ _ (encodes_xor _ _ _ _ (encodes_xor _ _ _ _
    (encodes_xor _ _ _ _ h32 h16) h7) h2) encodes_one
  simp only [mul_one] at h
  exact h

/-! ## Irreducibility of the tap polynomial -/

/-- An irreducible polynomial of degree `d` over GF(2) divides `x^(2^d) - x`: in the field
of `2^d` elements obtained by adjoining a root, every element is fixed by the `2^d`-th
power. -/
theorem irreducible_dvd_X_pow_sub_X (g : Polynomial (ZMod 2)) (hg : Irreducible g) :
    g ∣ Polynomial.X ^ (2 ^ g.natDegree) - Polynomial.X := by
  haveI : Fact (Irreducible g) := ⟨hg⟩
  have hg0 : g ≠ 0 := hg.ne_zero
  let pb := AdjoinRoot.powerBasis hg0
  haveI : Module.Finite (ZMod 2) (AdjoinRoot g) := PowerBasis.finite pb
  haveI : Fintype (AdjoinRoot g) := Module.fintypeOfFintype pb.basis
  have hrank : Module.finrank (ZMod 2) (AdjoinRoot g) = g.natDegree := by
    rw [PowerBasis.finrank pb]
    rfl
  have hcard : Fintype.card (AdjoinRoot g) = 2 ^ g.natDegree := by
    have h := card_eq_pow_finrank (K := ZMod 2) (V := AdjoinRoot g)
    rw [hrank, ZMod.card] at h
    exact h
  have hroot : (AdjoinRoot.root g) ^ (2 ^ g.natDegree) = AdjoinRoot.root g := by
    rw [← hcard]
    exact FiniteField.pow_card _
  rw [← AdjoinRoot.mk_eq_zero]
  simp [hroot]

/-- One link of the chain: from `f ∣ x^(2^d) - R` to `f ∣ x^(2^(d+1)) - R2` and to the
coprimality of `f` and `x^(2^(d+1)) - x`. -/
theorem chain_link (f R R2 Q U V : Polynomial (ZMod 2)) (d : Nat)
    (hsq : R * R = R2 + Q * f) (hbez : U * f + V * (R2 + Polynomial.X) = 1)
    (hdvd : f ∣ Polynomial.X ^ (2 ^ d) - R) :
    f ∣ Polynomial.X ^ (2 ^ (d + 1)) - R2 ∧
      IsCoprime f (Polynomial.X ^ (2 ^ (d + 1)) - Polynomial.X) := by
  obtain ⟨w, hw⟩ := hdvd
  have hstep : f ∣ Polynomial.X ^ (2 ^ (d + 1)) - R2 := by
    refine ⟨w * (Polynomial.X ^ (2 ^ d) + R) + Q, ?_⟩
    have hpow : (Polynomial.X : Polynomial (ZMod 2)) ^ (2 ^ (d + 1))
        = Polynomial.X ^ (2 ^ d) * Polynomial.X ^ (2 ^ d) := by
      rw [← pow_add, pow_succ, mul_two]
    have hR2 : R2 = R * R - Q * f := by rw [hsq]; ring
    rw [hpow, hR2]
    have e : (Polynomial.X : Polynomial (ZMod 2)) ^ (2 ^ d) * Polynomial.X ^ (2 ^ d)
        - (R * R - Q * f)
        = (Polynomial.X ^ (2 ^ d) - R) * (Polynomial.X ^ (2 ^ d) + R) + Q * f := by ring
    rw [e, hw]
    ring
  refine ⟨hstep, ?_⟩
  obtain ⟨w2, hw2⟩ := hstep
  have hminus : R2 - Polynomial.X = R2 + Polynomial.X := CharTwo.sub_eq_add _ _
  refine ⟨U - V * w2, V, ?_⟩
  have e : (Polynomial.X : Polynomial (ZMod 2)) ^ (2 ^ (d + 1)) - Polynomial.X
      = (Polynomial.X ^ (2 ^ (d + 1)) - R2) + (R2 + Polynomial.X) := by
    rw [← hminus]; ring
  rw [e, hw2, ← hbez]
  ring

/-- A chain accepted by `chainOK`, started at a residue of `x^(2^d)`, shows the polynomial
coprime to `x^(2^(d+k)) - x` for every `k` from 1 to its length. -/
theorem chainOK_sound (F : Nat) (f : Polynomial (ZMod 2)) (hF : Encodes F f) :
    ∀ (chain : List (Nat × Nat × Nat × Nat)) (r d : Nat) (R : Polynomial (ZMod 2)),
      chainOK F chain r = true → Encodes r R → f ∣ Polynomial.X ^ (2 ^ d) - R →
      ∀ k, 1 ≤ k → k ≤ chain.length →
        IsCoprime f (Polynomial.X ^ (2 ^ (d + k)) - Polynomial.X) := by
  intro chain
  induction chain with
  | nil =>
    intro r d R _ _ _ k h1 hk
    simp at hk
    omega
  | cons c later ih =>
    obtain ⟨q, r2, u, v⟩ := c
    intro r d R hok hR hdvd k h1 hk
    simp only [chainOK, Bool.and_eq_true, decide_eq_true_eq, beq_iff_eq] at hok
    obtain ⟨⟨⟨⟨⟨hr, hFlt⟩, hr2⟩, hsq⟩, hbez⟩, hrest⟩ := hok
    obtain ⟨R2, hR2⟩ := encodes_exists r2
    obtain ⟨Q, hQ⟩ := encodes_exists q
    obtain ⟨U, hU⟩ := encodes_exists u
    obtain ⟨V, hV⟩ := encodes_exists v
    have e1 : R * R = R2 + Q * f :=
      encodes_unique (clmul r r) _ _ (encodes_clmul r r R R hr hR hR)
        (by rw [hsq]; exact encodes_xor _ _ _ _ hR2 (encodes_clmul q F Q f hFlt hQ hF))
    have e2 : U * f + V * (R2 + Polynomial.X) = 1 :=
      encodes_unique 1 _ _
        (by
          rw [← hbez]
          exact encodes_xor _ _ _ _ (encodes_clmul u F U f hFlt hU hF)
            (encodes_clmul v (r2 ^^^ 2) V _ hr2 hV (encodes_xor _ _ _ _ hR2 encodes_X)))
        encodes_one
    obtain ⟨hnext, hcop⟩ := chain_link f R R2 Q U V d e1 e2 hdvd
    by_cases hk1 : k = 1
    · subst hk1
      exact hcop
    · have h := ih r2 (d + 1) R2 hrest hR2 hnext (k - 1) (by omega)
        (by simp only [List.length_cons] at hk; omega)
      have hidx : d + 1 + (k - 1) = d + k := by omega
      rw [hidx] at h
      exact h

theorem tapChain_ok : chainOK tapPolynomialMask tapChain 2 = true := by decide

theorem tapPolynomial_coprime (k : Nat) (h1 : 1 ≤ k) (hk : k ≤ 16) :
    IsCoprime
      (Polynomial.X ^ 32 + Polynomial.X ^ 16 + Polynomial.X ^ 7 + Polynomial.X ^ 2 + 1
        : Polynomial (ZMod 2))
      (Polynomial.X ^ (2 ^ k) - Polynomial.X) := by
  have h := chainOK_sound tapPolynomialMask _ encodes_tapPolynomial tapChain 2 0 Polynomial.X
    tapChain_ok encodes_X (by simp) k h1 (by simpa [tapChain] using hk)
  simpa using h

theorem tapPolynomial_natDegree :
    (Polynomial.X ^ 32 + Polynomial.X ^ 16 + Polynomial.X ^ 7 + Polynomial.X ^ 2 + 1
        : Polynomial (ZMod 2)).natDegree = 32 := by
  compute_degree!

theorem tapPolynomial_irreducible :
    Irreducible
      (Polynomial.X ^ 32 + Polynomial.X ^ 16 + Polynomial.X ^ 7 + Polynomial.X ^ 2 + 1
        : Polynomial (ZMod 2)) := by
  have hdeg := tapPolynomial_natDegree
  have hne : (Polynomial.X ^ 32 + Polynomial.X ^ 16 + Polynomial.X ^ 7 + Polynomial.X ^ 2 + 1
        : Polynomial (ZMod 2)) ≠ 0 := by
    intro h
    rw [h, Polynomial.natDegree_zero] at hdeg
    omega
  -- no factor of degree between 1 and 16
  have hsmall : ∀ a : Polynomial (ZMod 2),
      a ∣ (Polynomial.X ^ 32 + Polynomial.X ^ 16 + Polynomial.X ^ 7 + Polynomial.X ^ 2 + 1
        : Polynomial (ZMod 2)) → a.natDegree ≤ 16 → IsUnit a := by
    intro a hdvd hle
    by_contra hunit
    have ha0 : a ≠ 0 := fun h => hne (by rw [h] at hdvd; exact zero_dvd_iff.1 hdvd)
    obtain ⟨g, hg, hga⟩ := WfDvdMonoid.exists_irreducible_factor hunit ha0
    have hgdeg : g.natDegree ≤ 16 := le_trans (Polynomial.natDegree_le_of_dvd hga ha0) hle
    have hgpos : 1 ≤ g.natDegree := hg.natDegree_pos
    have hcop := tapPolynomial_coprime g.natDegree hgpos hgdeg
    have hg1 : IsUnit g :=
      hcop.isUnit_of_dvd' (dvd_trans hga hdvd) (irreducible_dvd_X_pow_sub_X g hg)
    exact hg.not_unit hg1
  rw [irreducible_iff]
  refine ⟨?_, ?_⟩
  · intro hunit
    have := Polynomial.natDegree_eq_zero_of_isUnit hunit
    omega
  · intro a b hab
    have ha0 : a ≠ 0 := fun h => hne (by rw [hab, h, zero_mul])
    have hb0 : b ≠ 0 := fun h => hne (by rw [hab, h, mul_zero])
    have hsum : a.natDegree + b.natDegree = 32 := by
      rw [← Polynomial.natDegree_mul ha0 hb0, ← hab, hdeg]
    by_cases hle : a.natDegree ≤ 16
    · exact Or.inl (hsmall a ⟨b, hab⟩ hle)
    · exact Or.inr (hsmall b ⟨a, by rw [hab, mul_comm]⟩ (by omega))

theorem lfsr_high_bit (w : Nat) (hw : w < 2 ^ 32) : lfsr w >>> 31 = feedbackShift w := by
  have hfb : feedbackShift w = (w + w / 2 ^ 16 + w / 2 ^ 25 + w / 2 ^ 30) % 2 :=
    feedback_eq_mod w
  rw [hfb, lfsr_arith w hw, Nat.shiftRight_eq_div_pow]
  omega

/-- C15: the bit that `lfsr` feeds back is the XOR of the bits at the positions `32 - e`
for the exponents `e = 32, 16, 7, 2` of the polynomial `x^32 + x^16 + x^7 + x^2 + 1` (the
shift amounts 0, 16, 25, 30 of the code), whose bit mask is `0x100010085`; and this
polynomial is irreducible over GF(2). -/
theorem taps_polynomial_irreducible :
    (∀ w, feedbackShift w =
      bitAt w (32 - 32) ^^^ bitAt w (32 - 16) ^^^ bitAt w (32 - 7) ^^^ bitAt w (32 - 2)) ∧
    (∀ w, w < 2 ^ 32 → lfsr w >>> 31 =
      bitAt w (32 - 32) ^^^ bitAt w (32 - 16) ^^^ bitAt w (32 - 7) ^^^ bitAt w (32 - 2)) ∧
    Encodes tapPolynomialMask
      (Polynomial.X ^ 32 + Polynomial.X ^ 16 + Polynomial.X ^ 7 + Polynomial.X ^ 2 + 1) ∧
    Irreducible
      (Polynomial.X ^ 32 + Polynomial.X ^ 16 + Polynomial.X ^ 7 + Polynomial.X ^ 2 + 1
        : Polynomial (ZMod 2)) := by
  have hbits : ∀ w, feedbackShift w =
      bitAt w (32 - 32) ^^^ bitAt w (32 - 16) ^^^ bitAt w (32 - 7) ^^^ bitAt w (32 - 2) := by
    intro w
    show feedbackShift w = bitAt w 0 ^^^ bitAt w 16 ^^^ bitAt w 25 ^^^ bitAt w 30
    unfold feedbackShift bitAt
    rw [xor_bits, Nat.shiftRight_zero]
  refine ⟨hbits, ?_, encodes_tapPolynomial, tapPolynomial_irreducible⟩
  intro w hw
  rw [lfsr_high_bit w hw]
  exact hbits w

end GraphGen
